import Mathlib

/-
Verification of the industry-sector aggregation and approximate-Voronoi
tessellation pipeline of the Scoring_web repository.

Source of truth:
  client/src/components/industry-voronoi-tab.tsx
    - the sector aggregation inside loadIndustryData (second component,
      lines 742-798): group enterprises by sector name, sum coordinates,
      produce one centroid point per sector;
    - computeVoronoi (second component, lines 551-711): the tessellator
      invoked on the aggregated centroids;
    - distanceCalc (lines 714-716).
  client/src/pages/clustering.tsx, InteractiveZoomSpaceWrapper transform
    (lines 40-114): the per-enterprise size / z computation.

Numbers are modelled by the real numbers.  JavaScript float special values
that the cited code branches on (undefined, null, NaN) are modelled by a
dedicated inductive type JSNum; a finite float is the constructor JSNum.num.
-/

noncomputable section

/-- Model of a JavaScript value read from a numeric field: it is either
absent (undefined), null, NaN, or a finite number. -/
inductive JSNum where
  | undefined : JSNum
  | null : JSNum
  | nan : JSNum
  | num : ℝ → JSNum

/-- Test for the JavaScript comparison v !== undefined. -/
def JSNum.isUndefined : JSNum → Bool
  | .undefined => true
  | _ => false

/-- Test for a finite numeric value (not undefined, null or NaN). -/
def JSNum.isNum : JSNum → Bool
  | .num _ => true
  | _ => false

/-- Model of the JavaScript expression parseFloat(v) || 0: parseFloat of
null or NaN yields NaN, which the || replaces by 0; a finite number is kept
(0 maps to 0 either way). -/
def parseOr0 : JSNum → ℝ
  | .num x => x
  | _ => 0

/-- Model of the JavaScript fallback s1 || s2 on an optional string: an
absent value and the empty string are falsy. -/
def jsOrOpt (v : Option String) (d : String) : String :=
  match v with
  | none => d
  | some s => if s = "" then d else s

/-- Model of the JavaScript fallback s1 || s2 on a present string field. -/
def jsOrS (s d : String) : String :=
  if s = "" then d else s

/-- One flattened enterprise record, as visited by the nested
companies.forEach / company.enterprise.forEach loops of loadIndustryData.
The company_ fields carry the enclosing company object fields that the
code uses as fallbacks for the per-enterprise fields.  sector_unique_id
fields are modelled after the optional-chaining toString call (absent
stays absent, a present value is already a string). -/
structure EnterpriseRow where
  sector_name : Option String
  company_sector_name : Option String
  sector_unique_id : Option String
  company_sector_unique_id : Option String
  pca2_x : JSNum
  pca2_y : JSNum

/-- sectorName of a record: enterprise.sector_name || company.sector_name
|| the string Unknown. -/
def sectorNameOf (r : EnterpriseRow) : String :=
  jsOrOpt r.sector_name (jsOrOpt r.company_sector_name "Unknown")

/-- sectorCode of a record: enterprise.sector_unique_id?.toString() ||
company.sector_unique_id?.toString() || sectorName. -/
def sectorCodeOf (r : EnterpriseRow) : String :=
  jsOrOpt r.sector_unique_id (jsOrOpt r.company_sector_unique_id (sectorNameOf r))

/-- The aggregation guard of loadIndustryData: the record is processed iff
enterprise.pca2_x !== undefined && enterprise.pca2_y !== undefined.  Note
that null and NaN coordinates pass this guard. -/
def hasCoords (r : EnterpriseRow) : Bool :=
  !r.pca2_x.isUndefined && !r.pca2_y.isUndefined

/-- One entry of the sectorMap of loadIndustryData.  The enterprises array
stored alongside is never read downstream and is omitted. -/
structure SectorAcc where
  name : String
  code : String
  x_sum : ℝ
  y_sum : ℝ
  count : ℕ

/-- Insertion / update of the sectorMap for one guarded record, preserving
the insertion order of a JavaScript Map: a new key is appended at the end,
an existing key is updated in place. -/
def updateAcc (key code : String) (x y : ℝ) : List SectorAcc → List SectorAcc
  | [] => [⟨key, code, x, y, 1⟩]
  | a :: rest =>
    if a.name = key then
      ⟨a.name, a.code, a.x_sum + x, a.y_sum + y, a.count + 1⟩ :: rest
    else
      a :: updateAcc key code x y rest

/-- One iteration of the record loop of loadIndustryData. -/
def stepRow (acc : List SectorAcc) (r : EnterpriseRow) : List SectorAcc :=
  if hasCoords r then
    updateAcc (sectorNameOf r) (sectorCodeOf r) (parseOr0 r.pca2_x) (parseOr0 r.pca2_y) acc
  else acc

/-- The sectorMap built by loadIndustryData from the flattened record
sequence, as an association list in JavaScript Map insertion order. -/
def sectorFold (rs : List EnterpriseRow) : List SectorAcc :=
  rs.foldl stepRow []

/-- Inner loop of shortenIndustryName: try the first i words, counting i
down; the first prefix of length at most maxLength - 3 wins. -/
def shortenLoop (words : List String) (maxLength : ℕ) : ℕ → Option String
  | 0 => none
  | i + 1 =>
    let shortName := String.intercalate " " (words.take (i + 1))
    if shortName.length ≤ maxLength - 3 then some (shortName ++ "...")
    else shortenLoop words maxLength i

/-- The shortenIndustryName helper of loadIndustryData.  JavaScript string
length (UTF-16 units) is modelled by character count. -/
def shortenIndustryName (name : String) (maxLength : ℕ) : String :=
  if name.length ≤ maxLength then name
  else
    match shortenLoop (name.splitOn " ") maxLength ((name.splitOn " ").length - 1) with
    | some s => s
    | none => name.take (maxLength - 3) ++ "..."

/-- One aggregated industry point (interface IndustryDataPoint, plus the
name_short field that the aggregation attaches). -/
structure IndustryDataPoint where
  sector_code : String
  full_id : String
  field_name : String
  labels : String
  name_short : String
  emb_x : ℝ
  emb_y : ℝ

/-- The point built from one sectorMap entry (the map in the industryPoints
construction of loadIndustryData). -/
def pointOfSector (s : SectorAcc) : IndustryDataPoint :=
  { sector_code := s.code
    full_id := s.code
    field_name := s.name ++ " (" ++ toString s.count ++ " doanh nghiệp)"
    labels := s.name
    name_short := shortenIndustryName s.name 15
    emb_x := s.x_sum / (s.count : ℝ)
    emb_y := s.y_sum / (s.count : ℝ) }

/-- The industryPoints list of loadIndustryData: sectorMap values, filtered
by count > 0, mapped to centroid points. -/
def aggregateIndustryPoints (rs : List EnterpriseRow) : List IndustryDataPoint :=
  ((sectorFold rs).filter (fun s => 0 < s.count)).map pointOfSector

/-- One Voronoi cell (interface VoronoiCell, plus the labels_short field
that computeVoronoi attaches). -/
structure VoronoiCell where
  sector_code : String
  field_name : String
  labels : String
  labels_short : String
  x : ℝ
  y : ℝ
  color : String
  vertices : List (ℝ × ℝ)

/-- The 20-entry color palette of computeVoronoi. -/
def colors20 : List String :=
  ["#e74c3c50", "#3498db50", "#2ecc7140", "#f39c1230",
   "#9b59b640", "#1abc9c30", "#e67e2240", "#34495e50",
   "#16a08560", "#27ae6040", "#2980b950", "#8e44ad40",
   "#2c3e5060", "#f1c40f50", "#e67e2260", "#95a5a640",
   "#ff6b6b50", "#4ecdc440", "#45b7d160", "#96ceb450"]

/-- First-seen deduplication, the order produced by Array.from(new Set(l)). -/
def firstDedup (l : List String) : List String :=
  l.foldl (fun acc x => if x ∈ acc then acc else acc ++ [x]) []

/-- The uniqueLabels list of computeVoronoi: first-seen distinct labels
(with the || fallback to Unknown), then sorted lexicographically by the
default JavaScript sort. -/
def uniqueLabelsOf (validPoints : List IndustryDataPoint) : List String :=
  List.insertionSort (· ≤ ·) (firstDedup (validPoints.map (fun d => jsOrS d.labels "Unknown")))

/-- One entry of the distances array of computeVoronoi. -/
structure DistEntry where
  distance : ℝ
  index : ℕ
  x : ℝ
  y : ℝ

/-- The distanceCalc helper: squared Euclidean distance (note: no square
root; the callers apply Math.sqrt to the result). -/
def distanceCalc (p1 p2 : DistEntry) : ℝ :=
  (p1.x - p2.x) ^ 2 + (p1.y - p2.y) ^ 2

/-- The distances array for one site: one entry per other point, carrying
its index, coordinates and Euclidean distance.  The code gives the point
itself distance Infinity and then filters entries with distance Infinity
away; on real-valued (finite) points this is exactly the removal of the
entry at the own index, which is how it is modelled here. -/
def distancesFor (validPoints : List IndustryDataPoint) (index : ℕ)
    (point : IndustryDataPoint) : List DistEntry :=
  (validPoints.enum.filter (fun ip => ip.1 ≠ index)).map (fun ip =>
    ⟨Real.sqrt ((ip.2.emb_x - point.emb_x) ^ 2 + (ip.2.emb_y - point.emb_y) ^ 2),
     ip.1, ip.2.emb_x, ip.2.emb_y⟩)

/-- The comparator of the distances sort. -/
def distLe (a b : DistEntry) : Prop := a.distance ≤ b.distance

instance : DecidableRel distLe := fun a b => inferInstanceAs (Decidable (a.distance ≤ b.distance))

instance : IsTotal DistEntry distLe := ⟨fun a b => le_total a.distance b.distance⟩

instance : IsTrans DistEntry distLe := ⟨fun _ _ _ h h2 => le_trans h h2⟩

/-- The distances array sorted ascending by distance (the stable JavaScript
sort with comparator a.distance - b.distance). -/
def sortedDistancesFor (validPoints : List IndustryDataPoint) (index : ℕ)
    (point : IndustryDataPoint) : List DistEntry :=
  List.insertionSort distLe (distancesFor validPoints index point)

/-- nearestNeighbors: the first min(6, length) sorted entries. -/
def nearestNeighborsFor (validPoints : List IndustryDataPoint) (index : ℕ)
    (point : IndustryDataPoint) : List DistEntry :=
  (sortedDistancesFor validPoints index point).take 6

/-- The perpendicular-bisector vertex pushed for one neighbor. -/
def bisectorVertex (point : IndustryDataPoint) (neighbor : DistEntry) : ℝ × ℝ :=
  let midX1 := (point.emb_x + neighbor.x) / 2
  let midY1 := (point.emb_y + neighbor.y) / 2
  let dx := neighbor.x - point.emb_x
  let dy := neighbor.y - point.emb_y
  let length := Real.sqrt (dx * dx + dy * dy)
  let perpX := -dy / length
  let perpY := dx / length
  let extension := min (length / 2) 1.5
  (midX1 + perpX * extension, midY1 + perpY * extension)

/-- The corner vertex pushed between two consecutive neighbors. -/
def cornerVertex (point : IndustryDataPoint) (neighbor nextNeighbor : DistEntry) : ℝ × ℝ :=
  let cornerX := (neighbor.x + nextNeighbor.x) / 2
  let cornerY := (neighbor.y + nextNeighbor.y) / 2
  let dx := neighbor.x - point.emb_x
  let dy := neighbor.y - point.emb_y
  let length := Real.sqrt (dx * dx + dy * dy)
  let perpX := -dy / length
  let perpY := dx / length
  (cornerX + (perpX + nextNeighbor.x - neighbor.x) / Real.sqrt (distanceCalc neighbor nextNeighbor) * 0.3,
   cornerY + (perpY + nextNeighbor.y - neighbor.y) / Real.sqrt (distanceCalc neighbor nextNeighbor) * 0.3)

/-- The vertex-construction loop over the nearest neighbors: for the i-th
neighbor a bisector vertex is pushed, followed by a corner vertex towards
neighbor i+1 whenever i < length - 1 (the code computes nextNeighbor with
index (i+1) mod length, but only uses it when i < length - 1, where the
mod is the identity). -/
def openVertices (point : IndustryDataPoint) : List DistEntry → List (ℝ × ℝ)
  | [] => []
  | [nb] => [bisectorVertex point nb]
  | nb :: nb2 :: rest =>
    bisectorVertex point nb :: cornerVertex point nb nb2 :: openVertices point (nb2 :: rest)

/-- The 12-vertex circular fallback cell for a point with fewer than 2
neighbors (radius 0.8).  Note that this branch does not repeat the first
vertex at the end. -/
def fallbackVertices (point : IndustryDataPoint) : List (ℝ × ℝ) :=
  (List.range 12).map (fun (i : ℕ) =>
    let angle := 2 * Real.pi * (i : ℝ) / 12
    (point.emb_x + 0.8 * Real.cos angle, point.emb_y + 0.8 * Real.sin angle))

/-- cellVertices for one site: the bisector construction closed by a repeat
of the first vertex when it produced more than 2 vertices, or the circular
fallback when there are fewer than 2 neighbors. -/
def cellVerticesFor (point : IndustryDataPoint) (nns : List DistEntry) : List (ℝ × ℝ) :=
  if 2 ≤ nns.length then
    let cv := openVertices point nns
    if 2 < cv.length then cv ++ [cv.headD (0, 0)] else cv
  else fallbackVertices point

/-- Clamping of one vertex into the extended bounding box. -/
def clampVertex (xMin xMax yMin yMax : ℝ) (v : ℝ × ℝ) : ℝ × ℝ :=
  (max xMin (min xMax v.1), max yMin (min yMax v.2))

/-- Math.min over a nonempty list (the empty case, where JavaScript would
give Infinity, is unreachable in computeVoronoi). -/
def listMin : List ℝ → ℝ
  | [] => 0
  | x :: xs => xs.foldl min x

/-- Math.max over a nonempty list. -/
def listMax : List ℝ → ℝ
  | [] => 0
  | x :: xs => xs.foldl max x

/-- The four sides of the padded bounding box of computeVoronoi. -/
def xMinOf (pts : List IndustryDataPoint) : ℝ := listMin (pts.map (fun p => p.emb_x)) - 2

def xMaxOf (pts : List IndustryDataPoint) : ℝ := listMax (pts.map (fun p => p.emb_x)) + 2

def yMinOf (pts : List IndustryDataPoint) : ℝ := listMin (pts.map (fun p => p.emb_y)) - 2

def yMaxOf (pts : List IndustryDataPoint) : ℝ := listMax (pts.map (fun p => p.emb_y)) + 2

/-- The cell pushed for one site of computeVoronoi. -/
def cellFor (validPoints : List IndustryDataPoint) (uniqueLabels : List String)
    (xMin xMax yMin yMax : ℝ) (index : ℕ) (point : IndustryDataPoint) : VoronoiCell :=
  let nns := nearestNeighborsFor validPoints index point
  let clamped := (cellVerticesFor point nns).map (clampVertex xMin xMax yMin yMax)
  let lbl := jsOrS point.labels "Unknown"
  let colorIndex := if lbl ∈ uniqueLabels then uniqueLabels.indexOf lbl
                    else index % colors20.length
  { sector_code := jsOrS point.sector_code "Unknown"
    field_name := jsOrS point.field_name "Unknown"
    labels := lbl
    labels_short := jsOrS point.name_short (point.labels.take 15 ++ "...")
    x := point.emb_x
    y := point.emb_y
    color := colors20.getD (colorIndex % colors20.length) ""
    vertices := clamped }

/-- The computeVoronoi function of the second IndustryVoronoiTab component
(the tessellator that loadIndustryData calls on the aggregated centroids).
On real-valued points the validity filter (typeof number, not NaN, finite)
keeps every point, so validPoints equals the input; the unused triangles
array and the try/catch (whose body cannot throw on such inputs) are not
represented. -/
def computeVoronoi (points : List IndustryDataPoint) : List VoronoiCell :=
  if points.length < 2 then []
  else
    let validPoints := points
    if validPoints.length < 2 then []
    else
      let xMin := xMinOf validPoints
      let xMax := xMaxOf validPoints
      let yMin := yMinOf validPoints
      let yMax := yMaxOf validPoints
      let uniqueLabels := uniqueLabelsOf validPoints
      validPoints.enum.map (fun ip => cellFor validPoints uniqueLabels xMin xMax yMin yMax ip.1 ip.2)

/-- The aggregation-plus-tessellation pipeline of loadIndustryData. -/
def voronoiPipeline (rs : List EnterpriseRow) : List VoronoiCell :=
  computeVoronoi (aggregateIndustryPoints rs)

/-- The list of divisors used while building the cell of one site: the
Euclidean distance to each nearest neighbor (the length variable of the
bisector and corner computations) and the square root of the squared
distance between each pair of consecutive nearest neighbors (the
denominator of the corner vertex).  A site with fewer than 2 neighbors
takes the circular fallback and divides by nothing. -/
def cellDivisors (validPoints : List IndustryDataPoint) (index : ℕ)
    (point : IndustryDataPoint) : List ℝ :=
  let nns := nearestNeighborsFor validPoints index point
  if 2 ≤ nns.length then
    nns.map (fun nb =>
      Real.sqrt ((nb.x - point.emb_x) * (nb.x - point.emb_x) +
        (nb.y - point.emb_y) * (nb.y - point.emb_y))) ++
    (nns.zip nns.tail).map (fun q => Real.sqrt (distanceCalc q.1 q.2))
  else []

/-- Test for a JavaScript nullish value (null or undefined), the values
skipped by the ?? operator. -/
def JSNum.isNullish : JSNum → Bool
  | .undefined => true
  | .null => true
  | _ => false

/-- Model of v1 ?? v2 on numeric fields. -/
def jsCoalesce (v d : JSNum) : JSNum :=
  if v.isNullish then d else v

/-- Model of v || d where v is a numeric field and d a number: undefined,
null, NaN and 0 are falsy. -/
def jsOrNum (v : JSNum) (d : ℝ) : ℝ :=
  match v with
  | .num x => if x = 0 then d else x
  | _ => d

/-- The finite value of a JSNum known to be numeric (used only after the
coordinate validity check). -/
def JSNum.val : JSNum → ℝ
  | .num x => x
  | _ => 0

/-- One enterprise object as read by the InteractiveZoomSpaceWrapper
transform of pages/clustering.tsx.  The display-only info sub-object the
code also assembles (names, taxcode, sector strings, years) is not
represented; the claims concern only coordinates, z and size. -/
structure ClusterEnterprise where
  pca2_x : JSNum
  pca2_y : JSNum
  emb_x : JSNum
  emb_y : JSNum
  cluster : JSNum
  label_field : JSNum
  cluster_label : JSNum
  s_DT_TTM : JSNum
  s_TTS : JSNum
  s_VCSH : JSNum
  s_EMPL : JSNum
  empl_qtty : JSNum
  employees : JSNum

/-- One company object: the wrapper only reads its enterprise array (its
other fields feed the omitted info sub-object). -/
structure ClusterCompany where
  enterprise : List ClusterEnterprise

/-- finalX / finalY selection: prefer pca2_x / pca2_y when both are not
undefined, fall back to emb_x / emb_y, else (0, 0). -/
def finalCoords (e : ClusterEnterprise) : JSNum × JSNum :=
  if !e.pca2_x.isUndefined && !e.pca2_y.isUndefined then (e.pca2_x, e.pca2_y)
  else if !e.emb_x.isUndefined && !e.emb_y.isUndefined then (e.emb_x, e.emb_y)
  else (.num 0, .num 0)

/-- clusterLabel: enterprise.cluster ?? enterprise.Label ??
enterprise.cluster_label ?? 0 (the Label field is named label_field here). -/
def clusterLabelOf (e : ClusterEnterprise) : JSNum :=
  jsCoalesce e.cluster (jsCoalesce e.label_field (jsCoalesce e.cluster_label (.num 0)))

/-- s_EMPL: enterprise.s_EMPL || enterprise.empl_qtty ||
enterprise.employees || 0. -/
def semplOf (e : ClusterEnterprise) : ℝ :=
  jsOrNum e.s_EMPL (jsOrNum e.empl_qtty (jsOrNum e.employees 0))

/-- calculatedZ = (s_DT_TTM + s_TTS + s_VCSH) * 0.3 + s_EMPL * 0.1, with
each metric read through the || 0 default. -/
def calculatedZ (e : ClusterEnterprise) : ℝ :=
  (jsOrNum e.s_DT_TTM 0 + jsOrNum e.s_TTS 0 + jsOrNum e.s_VCSH 0) * 0.3 + semplOf e * 0.1

/-- One transformed point pushed by the wrapper. -/
structure ZoomPoint where
  x : ℝ
  y : ℝ
  z : ℝ
  cluster : JSNum
  size : ℝ
  index : ℕ

/-- hasValidCoords: finalX and finalY are neither null, undefined nor NaN,
which on the JSNum model is exactly being a finite number. -/
def hasValidZoomCoords (fx fy : JSNum) : Bool :=
  fx.isNum && fy.isNum

/-- The transformed points, before the index numbering: companies and their
enterprises are visited in order and each enterprise with valid final
coordinates contributes one point with the fixed size 0.2. -/
def rawZoomPoints (cs : List ClusterCompany) : List ZoomPoint :=
  cs.flatMap (fun c => c.enterprise.filterMap (fun e =>
    if hasValidZoomCoords (finalCoords e).1 (finalCoords e).2 then
      some { x := (finalCoords e).1.val, y := (finalCoords e).2.val, z := calculatedZ e,
             cluster := clusterLabelOf e, size := 0.2, index := 0 }
    else none))

/-- The transformedData array of InteractiveZoomSpaceWrapper: the valid
points with index equal to the running pointIndex counter, which is the
position in the output list. -/
def transformClusteringData (cs : List ClusterCompany) : List ZoomPoint :=
  (rawZoomPoints cs).enum.map (fun ip => { ip.2 with index := ip.1 })

/-- Specification-side description of one sector group: the guard-passing
records carrying the given sector name. -/
def grp (n : String) (rs : List EnterpriseRow) : List EnterpriseRow :=
  rs.filter (fun r => hasCoords r && (sectorNameOf r == n))

/-- Sum of the zero-defaulted x coordinates over one sector group. -/
def sumXof (n : String) (rs : List EnterpriseRow) : ℝ :=
  ((grp n rs).map (fun r => parseOr0 r.pca2_x)).sum

/-- Sum of the zero-defaulted y coordinates over one sector group. -/
def sumYof (n : String) (rs : List EnterpriseRow) : ℝ :=
  ((grp n rs).map (fun r => parseOr0 r.pca2_y)).sum

/-- A record with finite (numeric) coordinates, the records the
specification expects to be aggregated. -/
def finiteRec (r : EnterpriseRow) : Bool :=
  r.pca2_x.isNum && r.pca2_y.isNum

/-- The finite-coordinate records of one sector, as the specification
groups them. -/
def fgrp (n : String) (rs : List EnterpriseRow) : List EnterpriseRow :=
  rs.filter (fun r => finiteRec r && (sectorNameOf r == n))

/-- Sum of x coordinates over the finite-coordinate records of a sector. -/
def fSumX (n : String) (rs : List EnterpriseRow) : ℝ :=
  ((fgrp n rs).map (fun r => r.pca2_x.val)).sum

/-- Sum of y coordinates over the finite-coordinate records of a sector. -/
def fSumY (n : String) (rs : List EnterpriseRow) : ℝ :=
  ((fgrp n rs).map (fun r => r.pca2_y.val)).sum

/-- Lookup of a sectorMap entry by name (JavaScript Map.get). -/
def findName (acc : List SectorAcc) (n : String) : Option SectorAcc :=
  acc.find? (fun a => a.name == n)

/-- The x sum stored for a name, zero when the name is absent. -/
def accX (acc : List SectorAcc) (n : String) : ℝ :=
  ((findName acc n).map (fun a => a.x_sum)).getD 0

/-- The y sum stored for a name, zero when the name is absent. -/
def accY (acc : List SectorAcc) (n : String) : ℝ :=
  ((findName acc n).map (fun a => a.y_sum)).getD 0

/-- The count stored for a name, zero when the name is absent. -/
def accC (acc : List SectorAcc) (n : String) : ℕ :=
  ((findName acc n).map (fun a => a.count)).getD 0

/-- The names of the sectorMap entries, in insertion order. -/
def namesOf (acc : List SectorAcc) : List String :=
  acc.map (fun a => a.name)

end

theorem findName_updateAcc_self (k c : String) (x y : ℝ) (acc : List SectorAcc) :
    findName (updateAcc k c x y acc) k =
      some (match findName acc k with
            | none => ⟨k, c, x, y, 1⟩
            | some a => ⟨a.name, a.code, a.x_sum + x, a.y_sum + y, a.count + 1⟩) := by
  induction acc with
  | nil => simp [findName, updateAcc, List.find?]
  | cons a rest ih =>
    by_cases h : a.name = k
    · simp [findName, updateAcc, List.find?, h]
    · simp only [updateAcc, if_neg h]
      have hb : (a.name == k) = false := by simp [h]
      simp [findName, List.find?, hb] at ih ⊢
      exact ih

theorem findName_updateAcc_other (k c : String) (x y : ℝ) (acc : List SectorAcc)
    (m : String) (hm : m ≠ k) :
    findName (updateAcc k c x y acc) m = findName acc m := by
  induction acc with
  | nil =>
    have hb : (k == m) = false := beq_eq_false_iff_ne.mpr (Ne.symm hm)
    simp [findName, updateAcc, List.find?, hb]
  | cons a rest ih =>
    by_cases h : a.name = k
    · have hb : (a.name == m) = false := by
        rw [h]; exact beq_eq_false_iff_ne.mpr (Ne.symm hm)
      simp [findName, updateAcc, List.find?, if_pos h, hb]
    · by_cases h2 : a.name = m
      · have hb : (a.name == m) = true := by simp [h2]
        simp only [updateAcc, if_neg h, findName, List.find?, hb]
      · have hb : (a.name == m) = false := by simp [h2]
        simp [findName, updateAcc, List.find?, if_neg h, hb] at ih ⊢
        exact ih

theorem accX_stepRow (acc : List SectorAcc) (r : EnterpriseRow) (n : String) :
    accX (stepRow acc r) n =
      accX acc n + (if hasCoords r ∧ sectorNameOf r = n then parseOr0 r.pca2_x else 0) := by
  by_cases hg : hasCoords r
  · by_cases hn : sectorNameOf r = n
    · rw [if_pos ⟨hg, hn⟩]
      simp only [stepRow, if_pos hg, hn, accX]
      rw [findName_updateAcc_self]
      rcases hf : findName acc n with _ | a <;> simp [hf]
    · rw [if_neg (fun hc => hn hc.2)]
      simp only [stepRow, if_pos hg, accX]
      rw [findName_updateAcc_other _ _ _ _ _ _ (fun h => hn h.symm)]
      simp
  · rw [if_neg (fun hc => hg hc.1)]
    simp [stepRow, hg]

theorem accY_stepRow (acc : List SectorAcc) (r : EnterpriseRow) (n : String) :
    accY (stepRow acc r) n =
      accY acc n + (if hasCoords r ∧ sectorNameOf r = n then parseOr0 r.pca2_y else 0) := by
  by_cases hg : hasCoords r
  · by_cases hn : sectorNameOf r = n
    · rw [if_pos ⟨hg, hn⟩]
      simp only [stepRow, if_pos hg, hn, accY]
      rw [findName_updateAcc_self]
      rcases hf : findName acc n with _ | a <;> simp [hf]
    · rw [if_neg (fun hc => hn hc.2)]
      simp only [stepRow, if_pos hg, accY]
      rw [findName_updateAcc_other _ _ _ _ _ _ (fun h => hn h.symm)]
      simp
  · rw [if_neg (fun hc => hg hc.1)]
    simp [stepRow, hg]

theorem accC_stepRow (acc : List SectorAcc) (r : EnterpriseRow) (n : String) :
    accC (stepRow acc r) n =
      accC acc n + (if hasCoords r ∧ sectorNameOf r = n then 1 else 0) := by
  by_cases hg : hasCoords r
  · by_cases hn : sectorNameOf r = n
    · rw [if_pos ⟨hg, hn⟩]
      simp only [stepRow, if_pos hg, hn, accC]
      rw [findName_updateAcc_self]
      rcases hf : findName acc n with _ | a <;> simp [hf]
    · rw [if_neg (fun hc => hn hc.2)]
      simp only [stepRow, if_pos hg, accC]
      rw [findName_updateAcc_other _ _ _ _ _ _ (fun h => hn h.symm)]
      simp
  · rw [if_neg (fun hc => hg hc.1)]
    simp [stepRow, hg]

theorem grp_cons (n : String) (r : EnterpriseRow) (rs : List EnterpriseRow) :
    grp n (r :: rs) =
      if hasCoords r ∧ sectorNameOf r = n then r :: grp n rs else grp n rs := by
  by_cases h : hasCoords r ∧ sectorNameOf r = n
  · rw [if_pos h]
    simp [grp, List.filter_cons, h.1, h.2]
  · rw [if_neg h]
    rcases Decidable.not_and_iff_or_not.mp h with h1 | h2
    · have h1' : hasCoords r = false := by
        revert h1; cases hasCoords r <;> simp
      simp [grp, List.filter_cons, h1']
    · have : (sectorNameOf r == n) = false := by simp [h2]
      simp [grp, List.filter_cons, this]

theorem foldl_stepRow_stats (rs : List EnterpriseRow) : ∀ (acc : List SectorAcc) (n : String),
    accX (rs.foldl stepRow acc) n = accX acc n + sumXof n rs ∧
    accY (rs.foldl stepRow acc) n = accY acc n + sumYof n rs ∧
    accC (rs.foldl stepRow acc) n = accC acc n + (grp n rs).length := by
  induction rs with
  | nil => intro acc n; simp [sumXof, sumYof, grp]
  | cons r rs ih =>
    intro acc n
    obtain ⟨hx, hy, hc⟩ := ih (stepRow acc r) n
    rw [List.foldl_cons]
    refine ⟨?_, ?_, ?_⟩
    · rw [hx, accX_stepRow]
      simp only [sumXof, grp_cons]
      by_cases h : hasCoords r ∧ sectorNameOf r = n <;>
        simp [h, sumXof] <;> ring
    · rw [hy, accY_stepRow]
      simp only [sumYof, grp_cons]
      by_cases h : hasCoords r ∧ sectorNameOf r = n <;>
        simp [h, sumYof] <;> ring
    · rw [hc, accC_stepRow]
      simp only [grp_cons]
      by_cases h : hasCoords r ∧ sectorNameOf r = n <;>
        simp [h] <;> omega

theorem namesOf_updateAcc (k c : String) (x y : ℝ) (acc : List SectorAcc) :
    namesOf (updateAcc k c x y acc) =
      if k ∈ namesOf acc then namesOf acc else namesOf acc ++ [k] := by
  induction acc with
  | nil => simp [namesOf, updateAcc]
  | cons a rest ih =>
    by_cases h : a.name = k
    · simp [namesOf, updateAcc, if_pos h, h]
    · have hint : (k ∈ a.name :: List.map (fun a => a.name) rest) ↔
          (k ∈ List.map (fun a => a.name) rest) := by
        constructor
        · intro hh
          rcases List.mem_cons.mp hh with hh2 | hh2
          · exact absurd hh2.symm h
          · exact hh2
        · exact List.mem_cons_of_mem _
      simp only [updateAcc, if_neg h, namesOf, List.map_cons] at ih ⊢
      by_cases hk : k ∈ List.map (fun a => a.name) rest
      · rw [if_pos (hint.mpr hk), ih, if_pos hk]
      · rw [if_neg (fun hc => hk (hint.mp hc)), ih, if_neg hk, List.cons_append]

theorem namesOf_stepRow (acc : List SectorAcc) (r : EnterpriseRow) :
    namesOf (stepRow acc r) =
      if hasCoords r then
        (if sectorNameOf r ∈ namesOf acc then namesOf acc else namesOf acc ++ [sectorNameOf r])
      else namesOf acc := by
  by_cases hg : hasCoords r
  · simp [stepRow, hg, namesOf_updateAcc]
  · simp [stepRow, hg]

theorem nodup_namesOf_foldl (rs : List EnterpriseRow) :
    ∀ acc : List SectorAcc, (namesOf acc).Nodup → (namesOf (rs.foldl stepRow acc)).Nodup := by
  induction rs with
  | nil => intro acc h; simpa using h
  | cons r rs ih =>
    intro acc h
    rw [List.foldl_cons]
    apply ih
    rw [namesOf_stepRow]
    by_cases hg : hasCoords r
    · rw [if_pos hg]
      by_cases hm : sectorNameOf r ∈ namesOf acc
      · rwa [if_pos hm]
      · rw [if_neg hm]
        simp [List.nodup_append, h, hm]
    · rwa [if_neg hg]

theorem nodup_namesOf_sectorFold (rs : List EnterpriseRow) :
    (namesOf (sectorFold rs)).Nodup :=
  nodup_namesOf_foldl rs [] (by simp [namesOf])

theorem findName_eq_of_mem (acc : List SectorAcc) (e : SectorAcc)
    (he : e ∈ acc) (hn : (namesOf acc).Nodup) : findName acc e.name = some e := by
  induction acc with
  | nil => simp at he
  | cons a rest ih =>
    rcases List.mem_cons.mp he with h | h
    · subst h
      simp [findName, List.find?]
    · have hne : a.name ≠ e.name := by
        intro hh
        have : e.name ∈ namesOf rest := List.mem_map.mpr ⟨e, h, rfl⟩
        rw [← hh] at this
        exact (List.nodup_cons.mp (by simpa [namesOf] using hn)).1 this

      have hb : (a.name == e.name) = false := beq_eq_false_iff_ne.mpr hne
      simp only [findName, List.find?, hb]
      exact ih h (List.nodup_cons.mp (by simpa [namesOf] using hn)).2

theorem mem_sectorFold_stats (rs : List EnterpriseRow) (e : SectorAcc)
    (he : e ∈ sectorFold rs) :
    e.x_sum = sumXof e.name rs ∧ e.y_sum = sumYof e.name rs ∧
      e.count = (grp e.name rs).length := by
  have hfind : findName (sectorFold rs) e.name = some e :=
    findName_eq_of_mem _ _ he (nodup_namesOf_sectorFold rs)
  obtain ⟨hx, hy, hc⟩ := foldl_stepRow_stats rs [] e.name
  rw [show rs.foldl stepRow [] = sectorFold rs from rfl] at hx hy hc
  refine ⟨?_, ?_, ?_⟩
  · have : accX (sectorFold rs) e.name = e.x_sum := by simp [accX, hfind]
    rw [this] at hx
    simpa [accX, findName, List.find?] using hx
  · have : accY (sectorFold rs) e.name = e.y_sum := by simp [accY, hfind]
    rw [this] at hy
    simpa [accY, findName, List.find?] using hy
  · have : accC (sectorFold rs) e.name = e.count := by simp [accC, hfind]
    rw [this] at hc
    simpa [accC, findName, List.find?] using hc

theorem updateAcc_count_pos (k c : String) (x y : ℝ) (acc : List SectorAcc)
    (h : ∀ e ∈ acc, 1 ≤ e.count) : ∀ e ∈ updateAcc k c x y acc, 1 ≤ e.count := by
  induction acc with
  | nil => intro e he; simp [updateAcc] at he; subst he; simp
  | cons a rest ih =>
    intro e he
    by_cases hk : a.name = k
    · simp only [updateAcc, if_pos hk] at he
      rcases List.mem_cons.mp he with hh | hh
      · subst hh; simp
      · exact h e (List.mem_cons_of_mem _ hh)
    · simp only [updateAcc, if_neg hk] at he
      rcases List.mem_cons.mp he with hh | hh
      · subst hh; exact h e (List.mem_cons_self _ _)
      · exact ih (fun e2 he2 => h e2 (List.mem_cons_of_mem _ he2)) e hh

theorem count_pos_foldl (rs : List EnterpriseRow) :
    ∀ acc : List SectorAcc, (∀ e ∈ acc, 1 ≤ e.count) →
      ∀ e ∈ rs.foldl stepRow acc, 1 ≤ e.count := by
  induction rs with
  | nil => intro acc h; simpa using h
  | cons r rs ih =>
    intro acc h
    rw [List.foldl_cons]
    apply ih
    intro e he
    by_cases hg : hasCoords r
    · simp only [stepRow, if_pos hg] at he
      exact updateAcc_count_pos _ _ _ _ _ h e he
    · simp only [stepRow, if_neg hg] at he
      exact h e he

theorem count_pos_sectorFold (rs : List EnterpriseRow) :
    ∀ e ∈ sectorFold rs, 1 ≤ e.count :=
  count_pos_foldl rs [] (by simp)

theorem aggregate_eq_map (rs : List EnterpriseRow) :
    aggregateIndustryPoints rs = (sectorFold rs).map pointOfSector := by
  unfold aggregateIndustryPoints
  congr 1
  rw [List.filter_eq_self]
  intro e he
  have := count_pos_sectorFold rs e he
  simpa using this

theorem mem_foldl_dedupStep (l : List String) :
    ∀ (acc : List String) (x : String),
      x ∈ l.foldl (fun a y => if y ∈ a then a else a ++ [y]) acc ↔ x ∈ acc ∨ x ∈ l := by
  induction l with
  | nil => intro acc x; simp
  | cons y l ih =>
    intro acc x
    rw [List.foldl_cons]
    by_cases hy : y ∈ acc
    · rw [if_pos hy, ih]
      constructor
      · rintro (h | h)
        · exact Or.inl h
        · exact Or.inr (List.mem_cons_of_mem _ h)
      · rintro (h | h)
        · exact Or.inl h
        · rcases List.mem_cons.mp h with h2 | h2
          · exact Or.inl (h2 ▸ hy)
          · exact Or.inr h2
    · rw [if_neg hy, ih]
      simp only [List.mem_append, List.mem_singleton, List.mem_cons]
      tauto

theorem mem_firstDedup (l : List String) (x : String) :
    x ∈ firstDedup l ↔ x ∈ l := by
  unfold firstDedup
  rw [mem_foldl_dedupStep]
  simp

theorem nodup_foldl_dedupStep (l : List String) :
    ∀ acc : List String, acc.Nodup →
      (l.foldl (fun a y => if y ∈ a then a else a ++ [y]) acc).Nodup := by
  induction l with
  | nil => intro acc h; simpa using h
  | cons y l ih =>
    intro acc h
    rw [List.foldl_cons]
    by_cases hy : y ∈ acc
    · rw [if_pos hy]; exact ih acc h
    · rw [if_neg hy]
      exact ih _ (by simp [List.nodup_append, h, hy])

theorem nodup_firstDedup (l : List String) : (firstDedup l).Nodup :=
  nodup_foldl_dedupStep l [] (by simp)

theorem foldl_dedupStep_eq_self (l : List String) :
    ∀ acc : List String, (acc ++ l).Nodup →
      l.foldl (fun a y => if y ∈ a then a else a ++ [y]) acc = acc ++ l := by
  induction l with
  | nil => intro acc _; simp
  | cons y l ih =>
    intro acc h
    have hy : y ∉ acc := by
      intro hc
      have := List.disjoint_of_nodup_append h
      exact this hc (List.mem_cons_self _ _)
    rw [List.foldl_cons, if_neg hy]
    have h2 : ((acc ++ [y]) ++ l).Nodup := by
      rw [List.append_assoc, List.singleton_append]
      exact h
    rw [ih _ h2, List.append_assoc, List.singleton_append]

theorem firstDedup_eq_self_of_nodup (l : List String) (h : l.Nodup) :
    firstDedup l = l := by
  unfold firstDedup
  rw [foldl_dedupStep_eq_self l [] (by simpa using h)]
  simp

theorem namesOf_foldl_eq_dedup (rs : List EnterpriseRow) :
    ∀ acc : List SectorAcc,
      namesOf (rs.foldl stepRow acc) =
        ((rs.filter hasCoords).map sectorNameOf).foldl
          (fun a y => if y ∈ a then a else a ++ [y]) (namesOf acc) := by
  induction rs with
  | nil => intro acc; simp
  | cons r rs ih =>
    intro acc
    rw [List.foldl_cons]
    by_cases hg : hasCoords r
    · rw [ih (stepRow acc r)]
      rw [List.filter_cons_of_pos (by simpa using hg), List.map_cons, List.foldl_cons]
      congr 1
      rw [namesOf_stepRow, if_pos hg]
    · rw [ih (stepRow acc r)]
      rw [List.filter_cons_of_neg (by simpa using hg)]
      congr 1
      rw [namesOf_stepRow, if_neg hg]

theorem sectorFold_names (rs : List EnterpriseRow) :
    namesOf (sectorFold rs) = firstDedup ((rs.filter hasCoords).map sectorNameOf) := by
  unfold sectorFold firstDedup
  rw [namesOf_foldl_eq_dedup rs []]
  simp [namesOf]

theorem labels_aggregate (rs : List EnterpriseRow) :
    (aggregateIndustryPoints rs).map (fun p => p.labels) =
      firstDedup ((rs.filter hasCoords).map sectorNameOf) := by
  rw [aggregate_eq_map, List.map_map, ← sectorFold_names]
  rfl

noncomputable section

/-- A record of sector A with a null x coordinate: it passes the
pca2_x !== undefined guard and contributes parseFloat(null) || 0 = 0. -/
def rowA_null : EnterpriseRow := ⟨some "A", none, none, none, .null, .num 0⟩

/-- A record of sector A at coordinates (2, 2). -/
def rowA_2 : EnterpriseRow := ⟨some "A", none, none, none, .num 2, .num 2⟩

/-- A record of sector A with an undefined x coordinate. -/
def rowA_noX : EnterpriseRow := ⟨some "A", none, none, none, .undefined, .num 0⟩

/-- A record of sector Z with a null x coordinate. -/
def rowZ_null : EnterpriseRow := ⟨some "Z", none, none, none, .null, .num 1⟩

/-- Counterexample dataset for the mean claim: one zero-filled null record
and one finite record in the same sector. -/
def dsC1 : List EnterpriseRow := [rowA_null, rowA_2]

/-- One-record dataset used by witnesses. -/
def dsW : List EnterpriseRow := [rowA_2]

/-- Counterexample dataset for the grouping-completeness claim. -/
def dsC7 : List EnterpriseRow := [rowZ_null]

/-- Claim C1 as stated: every centroid coordinate is the arithmetic mean
over exactly the finite-coordinate records of its sector. -/
def claimC1 : Prop :=
  ∀ rs : List EnterpriseRow, ∀ pt ∈ aggregateIndustryPoints rs,
    pt.emb_x = fSumX pt.labels rs / ((fgrp pt.labels rs).length : ℝ) ∧
    pt.emb_y = fSumY pt.labels rs / ((fgrp pt.labels rs).length : ℝ)

/-- A record is bad in the sense of claim C2 when its x coordinate is NaN
or null, or its y coordinate is undefined. -/
def badCoordC2 (r : EnterpriseRow) : Prop :=
  r.pca2_x = .nan ∨ r.pca2_x = .null ∨ r.pca2_y = .undefined

/-- The observable aggregation state named by claim C2: sector name,
coordinate sums and member count of every centroid. -/
def obsAgg (rs : List EnterpriseRow) : List (String × ℝ × ℝ × ℕ) :=
  (sectorFold rs).map (fun e => (e.name, e.x_sum, e.y_sum, e.count))

/-- Claim C2 as stated: a bad record never influences any centroid sum or
member count, i.e. removing it from any position leaves the aggregation
observables unchanged. -/
def claimC2 : Prop :=
  ∀ (rs1 rs2 : List EnterpriseRow) (r : EnterpriseRow), badCoordC2 r →
    obsAgg (rs1 ++ r :: rs2) = obsAgg (rs1 ++ rs2)

/-- Claim C7 as stated: centroid labels are exactly the distinct sector
names of the finite-coordinate records. -/
def claimC7 : Prop :=
  ∀ rs : List EnterpriseRow,
    ((aggregateIndustryPoints rs).map (fun p => p.labels)).Nodup ∧
    ∀ n : String,
      (∃ pt ∈ aggregateIndustryPoints rs, pt.labels = n) ↔
      (∃ r ∈ rs, finiteRec r = true ∧ sectorNameOf r = n)

/-- The centroid the witness dataset produces. -/
def pointW : IndustryDataPoint := pointOfSector ⟨"A", "A", 2, 2, 1⟩

theorem pointW_mem : pointW ∈ aggregateIndustryPoints dsW := by
  rw [aggregate_eq_map]
  refine List.mem_map.mpr ⟨⟨"A", "A", 2, 2, 1⟩, ?_, rfl⟩
  simp [sectorFold, dsW, rowA_2, stepRow, hasCoords, JSNum.isUndefined, updateAcc,
    sectorNameOf, sectorCodeOf, jsOrOpt, parseOr0]

/-- C1 (amended): every centroid coordinate is the zero-defaulted mean over
exactly the guard-passing records (both coordinate fields not undefined) of
its sector: null or NaN coordinates contribute 0 to the sum and are counted
in the denominator. -/
theorem aggregate_centroid_mean (rs : List EnterpriseRow) (pt : IndustryDataPoint)
    (h : pt ∈ aggregateIndustryPoints rs) :
    pt.emb_x = sumXof pt.labels rs / ((grp pt.labels rs).length : ℝ) ∧
    pt.emb_y = sumYof pt.labels rs / ((grp pt.labels rs).length : ℝ) := by
  rw [aggregate_eq_map] at h
  obtain ⟨e, he, rfl⟩ := List.mem_map.mp h
  obtain ⟨hx, hy, hc⟩ := mem_sectorFold_stats rs e he
  constructor
  · show e.x_sum / (e.count : ℝ) = _
    rw [hx, hc]
    rfl
  · show e.y_sum / (e.count : ℝ) = _
    rw [hy, hc]
    rfl

/-- Witness for the amended C1 theorem at a concrete one-record dataset. -/
theorem aggregate_centroid_mean_witness :
    pointW.emb_x = sumXof pointW.labels dsW / ((grp pointW.labels dsW).length : ℝ) ∧
    pointW.emb_y = sumYof pointW.labels dsW / ((grp pointW.labels dsW).length : ℝ) :=
  aggregate_centroid_mean dsW pointW pointW_mem

/-- C1 (counterexample): on the two-record dataset dsC1 the centroid x is
(0 + 2) / 2 = 1, but the mean over the finite-coordinate records is 2. -/
theorem claimC1_false : ¬ claimC1 := by
  intro h
  have hm : pointOfSector ⟨"A", "A", 0 + 2, 0 + 2, 2⟩ ∈ aggregateIndustryPoints dsC1 := by
    rw [aggregate_eq_map]
    refine List.mem_map.mpr ⟨⟨"A", "A", 0 + 2, 0 + 2, 2⟩, ?_, rfl⟩
    simp [sectorFold, dsC1, rowA_null, rowA_2, stepRow, hasCoords, JSNum.isUndefined,
      updateAcc, sectorNameOf, sectorCodeOf, jsOrOpt, parseOr0]
  have h2 := (h dsC1 _ hm).1
  have hlab : (pointOfSector ⟨"A", "A", 0 + 2, 0 + 2, 2⟩).labels = "A" := rfl
  rw [hlab] at h2
  have hx : (pointOfSector ⟨"A", "A", 0 + 2, 0 + 2, 2⟩).emb_x = 1 := by
    show ((0 : ℝ) + 2) / ((2 : ℕ) : ℝ) = 1
    norm_num
  rw [hx] at h2
  have hf : fgrp "A" dsC1 = [rowA_2] := by
    simp [fgrp, dsC1, List.filter, finiteRec, JSNum.isNum, rowA_null, rowA_2,
      sectorNameOf, jsOrOpt]
  rw [show fSumX "A" dsC1 = ((fgrp "A" dsC1).map (fun r => r.pca2_x.val)).sum from rfl, hf] at h2
  simp [rowA_2, JSNum.val] at h2

/-- C2 (amended): a record whose x or y coordinate field is undefined fails
the aggregation guard and leaves the whole sectorMap unchanged; it
influences neither coordinate sums nor member counts. -/
theorem undef_row_no_influence (rs1 rs2 : List EnterpriseRow) (r : EnterpriseRow)
    (h : r.pca2_x = .undefined ∨ r.pca2_y = .undefined) :
    sectorFold (rs1 ++ r :: rs2) = sectorFold (rs1 ++ rs2) := by
  unfold sectorFold
  rw [List.foldl_append, List.foldl_append, List.foldl_cons]
  have hg : hasCoords r = false := by
    rcases h with h | h <;> simp [hasCoords, h, JSNum.isUndefined]
  simp [stepRow, hg]

/-- Witness for the amended C2 theorem at a concrete position and record. -/
theorem undef_row_no_influence_witness :
    sectorFold ([] ++ rowA_noX :: [rowA_2]) = sectorFold ([] ++ [rowA_2]) :=
  undef_row_no_influence [] [rowA_2] rowA_noX (Or.inl rfl)

/-- C2 (counterexample): inserting the null-x record of sector A in front
of one finite record changes the member count from 1 to 2 (and the stored
mean from 2 to 1), so the record does influence the centroid. -/
theorem claimC2_false : ¬ claimC2 := by
  intro h
  have := h [] [rowA_2] rowA_null (Or.inr (Or.inl rfl))
  simp [obsAgg, sectorFold, stepRow, hasCoords, JSNum.isUndefined, updateAcc,
    sectorNameOf, sectorCodeOf, jsOrOpt, parseOr0, rowA_null, rowA_2] at this

/-- C7 (amended): the centroid labels are distinct and are exactly the
distinct sector names among the records passing the
pca2 fields !== undefined guard (null and NaN coordinates included). -/
theorem aggregate_complete (rs : List EnterpriseRow) :
    ((aggregateIndustryPoints rs).map (fun p => p.labels)).Nodup ∧
    ∀ n : String,
      (∃ pt ∈ aggregateIndustryPoints rs, pt.labels = n) ↔
      (∃ r ∈ rs, hasCoords r = true ∧ sectorNameOf r = n) := by
  constructor
  · rw [labels_aggregate]
    exact nodup_firstDedup _
  · intro n
    have hmem : n ∈ (aggregateIndustryPoints rs).map (fun p => p.labels) ↔
        n ∈ (rs.filter hasCoords).map sectorNameOf := by
      rw [labels_aggregate]
      exact mem_firstDedup _ _
    constructor
    · rintro ⟨pt, hpt, hl⟩
      have h1 : n ∈ (aggregateIndustryPoints rs).map (fun p => p.labels) :=
        List.mem_map.mpr ⟨pt, hpt, hl⟩
      obtain ⟨r, hr, hrn⟩ := List.mem_map.mp (hmem.mp h1)
      exact ⟨r, (List.mem_filter.mp hr).1, (List.mem_filter.mp hr).2, hrn⟩
    · rintro ⟨r, hr, hg, hn⟩
      have h1 : n ∈ (rs.filter hasCoords).map sectorNameOf :=
        List.mem_map.mpr ⟨r, List.mem_filter.mpr ⟨hr, hg⟩, hn⟩
      obtain ⟨pt, hpt, hl⟩ := List.mem_map.mp (hmem.mpr h1)
      exact ⟨pt, hpt, hl⟩

theorem computeVoronoi_of_two_le (pts : List IndustryDataPoint) (h : 2 ≤ pts.length) :
    computeVoronoi pts =
      pts.enum.map (fun ip =>
        cellFor pts (uniqueLabelsOf pts) (xMinOf pts) (xMaxOf pts) (yMinOf pts) (yMaxOf pts)
          ip.1 ip.2) := by
  unfold computeVoronoi
  rw [if_neg (by omega), if_neg (by omega)]

theorem computeVoronoi_of_lt_two (pts : List IndustryDataPoint) (h : pts.length < 2) :
    computeVoronoi pts = [] := by
  unfold computeVoronoi
  rw [if_pos h]

theorem computeVoronoi_length (pts : List IndustryDataPoint) (h : 2 ≤ pts.length) :
    (computeVoronoi pts).length = pts.length := by
  rw [computeVoronoi_of_two_le pts h]
  simp

theorem cellFor_vertices (v : List IndustryDataPoint) (u : List String)
    (xm xx ym yx : ℝ) (i : ℕ) (p : IndustryDataPoint) :
    (cellFor v u xm xx ym yx i p).vertices =
      (cellVerticesFor p (nearestNeighborsFor v i p)).map (clampVertex xm xx ym yx) := rfl

theorem foldl_min_le_init (xs : List ℝ) : ∀ x : ℝ, xs.foldl min x ≤ x := by
  induction xs with
  | nil => intro x; simp
  | cons y ys ih =>
    intro x
    rw [List.foldl_cons]
    exact le_trans (ih (min x y)) (min_le_left x y)

theorem le_foldl_max_init (xs : List ℝ) : ∀ x : ℝ, x ≤ xs.foldl max x := by
  induction xs with
  | nil => intro x; simp
  | cons y ys ih =>
    intro x
    rw [List.foldl_cons]
    exact le_trans (le_max_left x y) (ih (max x y))

theorem listMin_le_listMax (l : List ℝ) (h : l ≠ []) : listMin l ≤ listMax l := by
  cases l with
  | nil => exact absurd rfl h
  | cons x xs => exact le_trans (foldl_min_le_init xs x) (le_foldl_max_init xs x)

theorem listMin_le_of_mem (l : List ℝ) (y : ℝ) (h : y ∈ l) : listMin l ≤ y := by
  induction l with
  | nil => simp at h
  | cons x xs ih =>
    rcases List.mem_cons.mp h with h2 | h2
    · subst h2
      exact foldl_min_le_init xs y
    · show xs.foldl min x ≤ y
      have htail : ∀ z : ℝ, xs.foldl min z ≤ listMin xs := by
        intro z
        cases xs with
        | nil => simp at h2
        | cons w ws =>
          show ws.foldl min (min z w) ≤ ws.foldl min w
          have hmono : ∀ (l2 : List ℝ) (a b : ℝ), a ≤ b → l2.foldl min a ≤ l2.foldl min b := by
            intro l2
            induction l2 with
            | nil => intro a b hab; simpa using hab
            | cons c cs ihc =>
              intro a b hab
              rw [List.foldl_cons, List.foldl_cons]
              exact ihc _ _ (min_le_min hab le_rfl)
          exact hmono ws _ _ (min_le_right z w)
      exact le_trans (htail x) (ih h2)

theorem le_listMax_of_mem (l : List ℝ) (y : ℝ) (h : y ∈ l) : y ≤ listMax l := by
  induction l with
  | nil => simp at h
  | cons x xs ih =>
    rcases List.mem_cons.mp h with h2 | h2
    · subst h2
      exact le_foldl_max_init xs y
    · show y ≤ xs.foldl max x
      have htail : ∀ z : ℝ, listMax xs ≤ xs.foldl max z := by
        intro z
        cases xs with
        | nil => simp at h2
        | cons w ws =>
          show ws.foldl max w ≤ ws.foldl max (max z w)
          have hmono : ∀ (l2 : List ℝ) (a b : ℝ), a ≤ b → l2.foldl max a ≤ l2.foldl max b := by
            intro l2
            induction l2 with
            | nil => intro a b hab; simpa using hab
            | cons c cs ihc =>
              intro a b hab
              rw [List.foldl_cons, List.foldl_cons]
              exact ihc _ _ (max_le_max hab le_rfl)
          exact hmono ws _ _ (le_max_right z w)
      exact le_trans (ih h2) (htail x)

/-- C7 (counterexample): a sector whose only record has a null x coordinate
still yields a centroid, although it has no finite-coordinate record. -/
theorem claimC7_false : ¬ claimC7 := by
  intro h
  obtain ⟨-, hiff⟩ := h dsC7
  have hm : pointOfSector ⟨"Z", "Z", 0, 1, 1⟩ ∈ aggregateIndustryPoints dsC7 := by
    rw [aggregate_eq_map]
    refine List.mem_map.mpr ⟨⟨"Z", "Z", 0, 1, 1⟩, ?_, rfl⟩
    simp [sectorFold, dsC7, rowZ_null, stepRow, hasCoords, JSNum.isUndefined, updateAcc,
      sectorNameOf, sectorCodeOf, jsOrOpt, parseOr0]
  obtain ⟨r, hr, hfin, -⟩ := (hiff "Z").mp ⟨_, hm, rfl⟩
  have : r = rowZ_null := by simpa [dsC7] using hr
  subst this
  simp [finiteRec, rowZ_null, JSNum.isNum] at hfin

/-- C3: the tessellator returns one cell per input point, in input order
(witnessed by coordinates and label), when there are at least 2 points, and
the empty list otherwise. -/
theorem computeVoronoi_cardinality_order (pts : List IndustryDataPoint) :
    (computeVoronoi pts).map (fun c => (c.x, c.y, c.labels)) =
      if 2 ≤ pts.length then
        pts.map (fun p => (p.emb_x, p.emb_y, jsOrS p.labels "Unknown"))
      else [] := by
  by_cases h : 2 ≤ pts.length
  · rw [if_pos h, computeVoronoi_of_two_le pts h, List.map_map]
    have hfun : ((fun c : VoronoiCell => (c.x, c.y, c.labels)) ∘
        (fun ip : ℕ × IndustryDataPoint =>
          cellFor pts (uniqueLabelsOf pts) (xMinOf pts) (xMaxOf pts) (yMinOf pts) (yMaxOf pts)
            ip.1 ip.2)) =
        (fun p : IndustryDataPoint => (p.emb_x, p.emb_y, jsOrS p.labels "Unknown")) ∘
          Prod.snd := rfl
    rw [hfun, ← List.map_map, List.enum_map_snd]
  · rw [if_neg h, computeVoronoi_of_lt_two pts (by omega)]
    rfl

/-- C5: every vertex of every returned cell lies inside the bounding box of
the input points padded by 2 on each side. -/
theorem vertices_in_bounds (pts : List IndustryDataPoint) (c : VoronoiCell) (v : ℝ × ℝ)
    (h2 : 2 ≤ pts.length) (hc : c ∈ computeVoronoi pts) (hv : v ∈ c.vertices) :
    xMinOf pts ≤ v.1 ∧ v.1 ≤ xMaxOf pts ∧ yMinOf pts ≤ v.2 ∧ v.2 ≤ yMaxOf pts := by
  rw [computeVoronoi_of_two_le pts h2] at hc
  obtain ⟨ip, hip, rfl⟩ := List.mem_map.mp hc
  rw [cellFor_vertices] at hv
  obtain ⟨u, hu, rfl⟩ := List.mem_map.mp hv
  have hne : pts ≠ [] := by
    intro hh
    rw [hh] at h2
    simp at h2
  have hxm : xMinOf pts ≤ xMaxOf pts := by
    unfold xMinOf xMaxOf
    have := listMin_le_listMax (pts.map (fun p => p.emb_x)) (by simpa using hne)
    linarith
  have hym : yMinOf pts ≤ yMaxOf pts := by
    unfold yMinOf yMaxOf
    have := listMin_le_listMax (pts.map (fun p => p.emb_y)) (by simpa using hne)
    linarith
  unfold clampVertex
  exact ⟨le_max_left _ _, max_le hxm (min_le_left _ _),
         le_max_left _ _, max_le hym (min_le_left _ _)⟩

theorem length_filter_enumFrom_ne {α : Type} (i : ℕ) (l : List α) : ∀ k : ℕ,
    ((List.enumFrom k l).filter (fun ip => ip.1 ≠ i)).length =
      l.length - (if k ≤ i ∧ i < k + l.length then 1 else 0) := by
  induction l with
  | nil => intro k; simp
  | cons a l ih =>
    intro k
    rw [List.enumFrom_cons, List.filter_cons]
    simp only [List.length_cons]
    by_cases hk : k = i
    · subst hk
      have hd : (decide ((k, a).1 ≠ k)) = false := by simp
      rw [hd]
      simp only [Bool.false_eq_true, if_false]
      rw [ih (k + 1)]
      rw [if_neg (by omega : ¬ (k + 1 ≤ k ∧ k < k + 1 + l.length)),
          if_pos (by omega : k ≤ k ∧ k < k + (l.length + 1))]
      omega
    · have hd : (decide ((k, a).1 ≠ i)) = true := by simp [hk]
      rw [hd]
      simp only [if_true, List.length_cons]
      rw [ih (k + 1)]
      by_cases h1 : k + 1 ≤ i ∧ i < k + 1 + l.length
      · rw [if_pos h1, if_pos (by omega : k ≤ i ∧ i < k + (l.length + 1))]
        omega
      · rw [if_neg h1, if_neg (by omega : ¬ (k ≤ i ∧ i < k + (l.length + 1)))]
        omega

theorem length_distancesFor (pts : List IndustryDataPoint) (i : ℕ) (p : IndustryDataPoint)
    (hi : i < pts.length) : (distancesFor pts i p).length = pts.length - 1 := by
  unfold distancesFor
  rw [List.length_map]
  have h0 := length_filter_enumFrom_ne i pts 0
  rw [show List.enumFrom 0 pts = pts.enum from rfl] at h0
  rw [h0, if_pos ⟨Nat.zero_le i, by omega⟩]

theorem length_nns (pts : List IndustryDataPoint) (i : ℕ) (p : IndustryDataPoint)
    (hi : i < pts.length) :
    (nearestNeighborsFor pts i p).length = min 6 (pts.length - 1) := by
  unfold nearestNeighborsFor sortedDistancesFor
  rw [List.length_take, List.length_insertionSort, length_distancesFor pts i p hi]

theorem openVertices_length (p : IndustryDataPoint) :
    ∀ nns : List DistEntry, nns ≠ [] →
      (openVertices p nns).length = 2 * nns.length - 1 := by
  intro nns
  induction nns with
  | nil => intro h; exact absurd rfl h
  | cons nb rest ih =>
    intro _
    cases rest with
    | nil => simp [openVertices]
    | cons nb2 rest2 =>
      have := ih (by simp)
      simp only [openVertices, List.length_cons] at this ⊢
      omega

theorem mem_enum_lt {α : Type} (pts : List α) (ip : ℕ × α)
    (h : ip ∈ pts.enum) : ip.1 < pts.length := by
  have := List.mem_enum_iff_getElem?.mp h
  have := List.getElem?_eq_some.mp this
  exact this.1

theorem mem_enum_snd_mem {α : Type} (pts : List α) (ip : ℕ × α)
    (h : ip ∈ pts.enum) : ip.2 ∈ pts := by
  have h1 := List.mem_enum_iff_getElem?.mp h
  obtain ⟨hlt, hget⟩ := List.getElem?_eq_some.mp h1
  exact hget ▸ List.getElem_mem hlt

theorem cell_closed_of_three_le (pts : List IndustryDataPoint) (c : VoronoiCell)
    (h3 : 3 ≤ pts.length) (hc : c ∈ computeVoronoi pts) :
    4 ≤ c.vertices.length ∧ c.vertices.head? = c.vertices.getLast? := by
  rw [computeVoronoi_of_two_le pts (by omega)] at hc
  obtain ⟨ip, hip, rfl⟩ := List.mem_map.mp hc
  have hi : ip.1 < pts.length := mem_enum_lt pts ip hip
  have hlen : (nearestNeighborsFor pts ip.1 ip.2).length = min 6 (pts.length - 1) :=
    length_nns pts ip.1 ip.2 hi
  have h2 : 2 ≤ (nearestNeighborsFor pts ip.1 ip.2).length := by omega
  have hne : nearestNeighborsFor pts ip.1 ip.2 ≠ [] := by
    intro hh
    rw [hh] at h2
    simp at h2
  have hov : (openVertices ip.2 (nearestNeighborsFor pts ip.1 ip.2)).length =
      2 * (nearestNeighborsFor pts ip.1 ip.2).length - 1 :=
    openVertices_length ip.2 _ hne
  rw [cellFor_vertices]
  unfold cellVerticesFor
  rw [if_pos h2, if_pos (by omega)]
  constructor
  · rw [List.length_map, List.length_append]
    simp only [List.length_singleton]
    omega
  · have hcv : openVertices ip.2 (nearestNeighborsFor pts ip.1 ip.2) ≠ [] := by
      intro hh
      rw [hh] at hov
      simp at hov
      omega
    obtain ⟨a, tl, ha⟩ := List.exists_cons_of_ne_nil hcv
    rw [ha]
    simp only [List.headD_cons, List.map_append, List.map_cons, List.map_nil]
    rw [List.getLast?_concat, List.cons_append, List.head?_cons]

theorem sin_angle_zero : Real.sin (2 * Real.pi * ((0 : ℕ) : ℝ) / 12) = 0 := by
  norm_num

theorem sin_angle_eleven : Real.sin (2 * Real.pi * ((11 : ℕ) : ℝ) / 12) = -(1 / 2) := by
  have harg : 2 * Real.pi * ((11 : ℕ) : ℝ) / 12 = -(Real.pi / 6) + 2 * Real.pi := by
    push_cast
    ring
  rw [harg, Real.sin_add_two_pi, Real.sin_neg, Real.sin_pi_div_six]

theorem fallbackVertices_head? (p : IndustryDataPoint) :
    (fallbackVertices p).head? = some (p.emb_x + 0.8 * Real.cos (2 * Real.pi * ((0 : ℕ) : ℝ) / 12),
      p.emb_y + 0.8 * Real.sin (2 * Real.pi * ((0 : ℕ) : ℝ) / 12)) := by
  unfold fallbackVertices
  rw [show (12 : ℕ) = 11 + 1 from rfl, List.range_succ_eq_map]
  rfl

theorem fallbackVertices_getLast? (p : IndustryDataPoint) :
    (fallbackVertices p).getLast? =
      some (p.emb_x + 0.8 * Real.cos (2 * Real.pi * ((11 : ℕ) : ℝ) / 12),
        p.emb_y + 0.8 * Real.sin (2 * Real.pi * ((11 : ℕ) : ℝ) / 12)) := by
  unfold fallbackVertices
  have h12 : List.range 12 = List.range 11 ++ [11] := by
    rw [show (12 : ℕ) = 11 + 1 from rfl, List.range_succ]
  rw [h12, List.map_append, List.map_cons, List.map_nil, List.getLast?_concat]

theorem cell_fallback_of_two (pts : List IndustryDataPoint) (c : VoronoiCell)
    (h2 : pts.length = 2) (hc : c ∈ computeVoronoi pts) :
    c.vertices.length = 12 ∧ c.vertices.head? ≠ c.vertices.getLast? := by
  rw [computeVoronoi_of_two_le pts (by omega)] at hc
  obtain ⟨ip, hip, rfl⟩ := List.mem_map.mp hc
  have hi : ip.1 < pts.length := mem_enum_lt pts ip hip
  have hmem : ip.2 ∈ pts := mem_enum_snd_mem pts ip hip
  have hlen : (nearestNeighborsFor pts ip.1 ip.2).length = min 6 (pts.length - 1) :=
    length_nns pts ip.1 ip.2 hi
  have hnn : ¬ 2 ≤ (nearestNeighborsFor pts ip.1 ip.2).length := by omega
  rw [cellFor_vertices]
  unfold cellVerticesFor
  rw [if_neg hnn]
  have hylo : listMin (List.map (fun p => p.emb_y) pts) ≤ ip.2.emb_y :=
    listMin_le_of_mem _ _ (List.mem_map.mpr ⟨ip.2, hmem, rfl⟩)
  have hyhi : ip.2.emb_y ≤ listMax (List.map (fun p => p.emb_y) pts) :=
    le_listMax_of_mem _ _ (List.mem_map.mpr ⟨ip.2, hmem, rfl⟩)
  constructor
  · rw [List.length_map]
    unfold fallbackVertices
    rw [List.length_map, List.length_range]
  · rw [List.head?_map, List.getLast?_map, fallbackVertices_head?, fallbackVertices_getLast?]
    intro heq
    simp only [Option.map_some', Option.some.injEq] at heq
    have hy := congrArg Prod.snd heq
    simp only [clampVertex] at hy
    rw [sin_angle_zero, sin_angle_eleven] at hy
    have hv0 : max (yMinOf pts) (min (yMaxOf pts) (ip.2.emb_y + 0.8 * 0)) = ip.2.emb_y := by
      rw [show ip.2.emb_y + 0.8 * 0 = ip.2.emb_y by ring]
      unfold yMinOf yMaxOf
      rw [min_eq_right (by linarith), max_eq_right (by linarith)]
    have hv11 : max (yMinOf pts) (min (yMaxOf pts) (ip.2.emb_y + 0.8 * -(1 / 2))) =
        ip.2.emb_y - 0.4 := by
      rw [show ip.2.emb_y + 0.8 * -(1 / 2) = ip.2.emb_y - 0.4 by ring]
      unfold yMinOf yMaxOf
      rw [min_eq_right (by linarith), max_eq_right (by linarith)]
    rw [hv0, hv11] at hy
    linarith

/-- A point with constant metadata at given coordinates, used to build
concrete tessellator inputs. -/
def mkPt (l : String) (x y : ℝ) : IndustryDataPoint :=
  ⟨l, l, l, l, l, x, y⟩

/-- Placeholder cell for headD. -/
def dummyCell : VoronoiCell := ⟨"", "", "", "", 0, 0, "", []⟩

/-- Two centroids: each has exactly one neighbor, so both cells take the
circular fallback branch. -/
def pts2cex : List IndustryDataPoint := [mkPt "A" 0 0, mkPt "B" 4 0]

/-- Three centroids with pairwise distances 3, 4 and 5. -/
def pts3 : List IndustryDataPoint := [mkPt "A" 0 0, mkPt "B" 3 0, mkPt "C" 0 4]

theorem headD_mem {α : Type} (l : List α) (d : α) (h : l ≠ []) : l.headD d ∈ l := by
  cases l with
  | nil => exact absurd rfl h
  | cons a t => simp

/-- Claim C4 as stated: every returned cell has at least 3 vertices not
counting the closing repeat (so at least 4 in total) and its first vertex
equals its last vertex, including fallback cells. -/
def claimC4 : Prop :=
  ∀ (pts : List IndustryDataPoint) (c : VoronoiCell), c ∈ computeVoronoi pts →
    4 ≤ c.vertices.length ∧ c.vertices.head? = c.vertices.getLast?

/-- C4 (amended): cells produced by the bisector branch (every point has at
least 2 neighbors, i.e. at least 3 input points) have at least 3 vertices
plus a closing repeat of the first vertex; but for a 2-point input each
cell is a circular fallback 12-gon whose first and last vertices differ
(the ring is not explicitly closed). -/
theorem cell_ring_structure (pts : List IndustryDataPoint) (c : VoronoiCell) :
    (3 ≤ pts.length → c ∈ computeVoronoi pts →
      4 ≤ c.vertices.length ∧ c.vertices.head? = c.vertices.getLast?) ∧
    (pts.length = 2 → c ∈ computeVoronoi pts →
      c.vertices.length = 12 ∧ c.vertices.head? ≠ c.vertices.getLast?) :=
  ⟨fun h3 hc => cell_closed_of_three_le pts c h3 hc,
   fun h2 hc => cell_fallback_of_two pts c h2 hc⟩

/-- The first cell of the 3-point input, used by several witnesses. -/
def cell3 : VoronoiCell := (computeVoronoi pts3).headD dummyCell

theorem pts3_length : pts3.length = 3 := by simp [pts3]

theorem cell3_mem : cell3 ∈ computeVoronoi pts3 := by
  apply headD_mem
  have hl : (computeVoronoi pts3).length = 3 := by
    rw [computeVoronoi_length pts3 (by rw [pts3_length]; omega), pts3_length]
  intro h
  rw [h] at hl
  simp at hl

/-- Witness for the amended C4 theorem at the 3-point input. -/
theorem cell_ring_structure_witness :
    4 ≤ cell3.vertices.length ∧ cell3.vertices.head? = cell3.vertices.getLast? :=
  (cell_ring_structure pts3 cell3).1 (by rw [pts3_length]) cell3_mem

/-- C4 (counterexample): on the 2-point input the cells are open 12-gons,
whose first vertex differs from their last vertex. -/
theorem claimC4_false : ¬ claimC4 := by
  intro h
  have hlen2 : pts2cex.length = 2 := by simp [pts2cex]
  have hne : computeVoronoi pts2cex ≠ [] := by
    have hl : (computeVoronoi pts2cex).length = 2 := by
      rw [computeVoronoi_length pts2cex (by omega), hlen2]
    intro hh
    rw [hh] at hl
    simp at hl
  have hc := headD_mem _ dummyCell hne
  have h1 := h pts2cex _ hc
  have h2 := cell_fallback_of_two pts2cex _ hlen2 hc
  exact h2.2 h1.2

/-- The first vertex of the first cell of the 3-point input. -/
def vtx3 : ℝ × ℝ := cell3.vertices.headD (0, 0)

theorem vtx3_mem : vtx3 ∈ cell3.vertices := by
  apply headD_mem
  have h4 := (cell_closed_of_three_le pts3 cell3 (by rw [pts3_length]) cell3_mem).1
  intro hh
  rw [hh] at h4
  simp at h4

/-- Witness for the bounding-containment theorem at the 3-point input. -/
theorem vertices_in_bounds_witness :
    xMinOf pts3 ≤ vtx3.1 ∧ vtx3.1 ≤ xMaxOf pts3 ∧
    yMinOf pts3 ≤ vtx3.2 ∧ vtx3.2 ≤ yMaxOf pts3 :=
  vertices_in_bounds pts3 cell3 vtx3 (by rw [pts3_length]; omega) cell3_mem vtx3_mem

theorem distancesFor_mem_spec (pts : List IndustryDataPoint) (i : ℕ)
    (p : IndustryDataPoint) (e : DistEntry) (he : e ∈ distancesFor pts i p) :
    ∃ h : e.index < pts.length, e.index ≠ i ∧
      e.x = (pts.get ⟨e.index, h⟩).emb_x ∧ e.y = (pts.get ⟨e.index, h⟩).emb_y := by
  unfold distancesFor at he
  obtain ⟨ip, hip, rfl⟩ := List.mem_map.mp he
  obtain ⟨hmem, hne⟩ := List.mem_filter.mp hip
  obtain ⟨hlt, hget⟩ := List.getElem?_eq_some.mp (List.mem_enum_iff_getElem?.mp hmem)
  refine ⟨hlt, by simpa using hne, ?_, ?_⟩
  · show ip.2.emb_x = (pts.get ⟨ip.1, hlt⟩).emb_x
    rw [show pts.get ⟨ip.1, hlt⟩ = pts[ip.1] from rfl, hget]
  · show ip.2.emb_y = (pts.get ⟨ip.1, hlt⟩).emb_y
    rw [show pts.get ⟨ip.1, hlt⟩ = pts[ip.1] from rfl, hget]

theorem nns_subset_distances (pts : List IndustryDataPoint) (i : ℕ)
    (p : IndustryDataPoint) :
    nearestNeighborsFor pts i p ⊆ distancesFor pts i p := fun e he =>
  (List.perm_insertionSort distLe _).subset (List.take_subset 6 _ he)

theorem nodup_indices_distances (pts : List IndustryDataPoint) (i : ℕ)
    (p : IndustryDataPoint) :
    ((distancesFor pts i p).map (fun e => e.index)).Nodup := by
  have h1 : (distancesFor pts i p).map (fun e => e.index) =
      (pts.enum.filter (fun ip => ip.1 ≠ i)).map Prod.fst := by
    unfold distancesFor
    rw [List.map_map]
    rfl
  rw [h1]
  have h2 : List.Sublist ((pts.enum.filter (fun ip => ip.1 ≠ i)).map Prod.fst)
      (pts.enum.map Prod.fst) := (List.filter_sublist _).map _
  exact h2.nodup (by rw [List.enum_map_fst]; exact List.nodup_range _)

theorem nodup_indices_nns (pts : List IndustryDataPoint) (i : ℕ)
    (p : IndustryDataPoint) :
    ((nearestNeighborsFor pts i p).map (fun e => e.index)).Nodup := by
  have hperm : List.Perm ((sortedDistancesFor pts i p).map (fun e => e.index))
      ((distancesFor pts i p).map (fun e => e.index)) :=
    (List.perm_insertionSort distLe _).map _
  have hsorted : ((sortedDistancesFor pts i p).map (fun e => e.index)).Nodup :=
    hperm.nodup_iff.mpr (nodup_indices_distances pts i p)
  have htake : List.Sublist ((nearestNeighborsFor pts i p).map (fun e => e.index))
      ((sortedDistancesFor pts i p).map (fun e => e.index)) :=
    (List.take_sublist 6 _).map _
  exact htake.nodup hsorted

theorem zip_tail_pairwise {α : Type} {R : α → α → Prop} :
    ∀ l : List α, l.Pairwise R → ∀ p ∈ l.zip l.tail, R p.1 p.2 := by
  intro l
  induction l with
  | nil => intro _ p hp; simp at hp
  | cons a t ih =>
    intro hpw p hp
    cases t with
    | nil => simp at hp
    | cons b t2 =>
      rw [show (a :: b :: t2).tail = b :: t2 from rfl, List.zip_cons_cons] at hp
      rcases List.mem_cons.mp hp with h | h
      · subst h
        exact (List.pairwise_cons.mp hpw).1 b (by simp)
      · exact ih (List.pairwise_cons.mp hpw).2 p h

theorem coords_distinct_of_pairwise (pts : List IndustryDataPoint)
    (hdist : pts.Pairwise (fun a b => (a.emb_x, a.emb_y) ≠ (b.emb_x, b.emb_y)))
    (j k : Fin pts.length) (hjk : j ≠ k) :
    ((pts.get j).emb_x, (pts.get j).emb_y) ≠ ((pts.get k).emb_x, (pts.get k).emb_y) := by
  have h := List.pairwise_iff_get.mp hdist
  rcases hjk.lt_or_lt with hlt | hlt
  · exact h j k hlt
  · exact (h k j hlt).symm

theorem sq_sum_pos_of_coords_ne (ax ay bx bY : ℝ) (h : (ax, ay) ≠ (bx, bY)) :
    0 < (ax - bx) * (ax - bx) + (ay - bY) * (ay - bY) := by
  by_cases hx : ax = bx
  · have hy : ay ≠ bY := by
      intro hy
      exact h (by rw [hx, hy])
    have h1 : 0 < (ay - bY) * (ay - bY) := mul_self_pos.mpr (sub_ne_zero.mpr hy)
    nlinarith [mul_self_nonneg (ax - bx)]
  · have h1 : 0 < (ax - bx) * (ax - bx) := mul_self_pos.mpr (sub_ne_zero.mpr hx)
    nlinarith [mul_self_nonneg (ay - bY)]

/-- C10: when the input centroids have pairwise distinct coordinates, every
divisor of the cell construction (the Euclidean distance to each nearest
neighbor, and the square root of the squared distance between consecutive
nearest neighbors) is strictly positive; in the real-valued model all
vertex coordinates are therefore well defined finite numbers. -/
theorem cell_divisors_pos (pts : List IndustryDataPoint) (ip : ℕ × IndustryDataPoint)
    (hdist : pts.Pairwise (fun a b => (a.emb_x, a.emb_y) ≠ (b.emb_x, b.emb_y)))
    (hip : ip ∈ pts.enum) :
    ∀ d ∈ cellDivisors pts ip.1 ip.2, 0 < d := by
  intro d hd
  unfold cellDivisors at hd
  by_cases h2 : 2 ≤ (nearestNeighborsFor pts ip.1 ip.2).length
  swap
  · rw [if_neg h2] at hd
    simp at hd
  rw [if_pos h2] at hd
  have hilt : ip.1 < pts.length := mem_enum_lt pts ip hip
  have hpget : pts.get ⟨ip.1, hilt⟩ = ip.2 := by
    obtain ⟨hlt, hget⟩ := List.getElem?_eq_some.mp (List.mem_enum_iff_getElem?.mp hip)
    exact hget
  rcases List.mem_append.mp hd with hd | hd
  · obtain ⟨nb, hnb, rfl⟩ := List.mem_map.mp hd
    obtain ⟨hlt, hnei, hx, hy⟩ :=
      distancesFor_mem_spec pts ip.1 ip.2 nb (nns_subset_distances pts ip.1 ip.2 hnb)
    apply Real.sqrt_pos.mpr
    have hne : (nb.x, nb.y) ≠ (ip.2.emb_x, ip.2.emb_y) := by
      rw [hx, hy, ← hpget]
      exact coords_distinct_of_pairwise pts hdist ⟨nb.index, hlt⟩ ⟨ip.1, hilt⟩
        (by simp [Fin.ext_iff, hnei])
    exact sq_sum_pos_of_coords_ne _ _ _ _ hne
  · obtain ⟨q, hq, rfl⟩ := List.mem_map.mp hd
    have hpw : (nearestNeighborsFor pts ip.1 ip.2).Pairwise
        (fun a b => a.index ≠ b.index) :=
      List.pairwise_map.mp (nodup_indices_nns pts ip.1 ip.2)
    have hRne : q.1.index ≠ q.2.index := zip_tail_pairwise _ hpw q hq
    obtain ⟨hq1, hq2t⟩ := List.of_mem_zip hq
    have hq2 : q.2 ∈ nearestNeighborsFor pts ip.1 ip.2 :=
      (List.tail_sublist _).subset hq2t
    obtain ⟨hlt1, -, hx1, hy1⟩ := distancesFor_mem_spec pts ip.1 ip.2 q.1
      (nns_subset_distances pts ip.1 ip.2 hq1)
    obtain ⟨hlt2, -, hx2, hy2⟩ := distancesFor_mem_spec pts ip.1 ip.2 q.2
      (nns_subset_distances pts ip.1 ip.2 hq2)
    apply Real.sqrt_pos.mpr
    have hne : (q.1.x, q.1.y) ≠ (q.2.x, q.2.y) := by
      rw [hx1, hy1, hx2, hy2]
      exact coords_distinct_of_pairwise pts hdist ⟨q.1.index, hlt1⟩ ⟨q.2.index, hlt2⟩
        (by simp [Fin.ext_iff, hRne])
    have hpos := sq_sum_pos_of_coords_ne q.1.x q.1.y q.2.x q.2.y hne
    unfold distanceCalc
    nlinarith [hpos]

/-- The first divisor of the first cell of the 3-point input. -/
def div3 : ℝ := (cellDivisors pts3 0 (mkPt "A" 0 0)).headD 1

theorem pts3_pairwise :
    pts3.Pairwise (fun a b => (a.emb_x, a.emb_y) ≠ (b.emb_x, b.emb_y)) := by
  simp only [pts3, mkPt, List.pairwise_cons, List.mem_cons, List.mem_singleton]
  refine ⟨?_, ?_, ?_⟩
  · rintro b (rfl | rfl | h)
    · simp [Prod.ext_iff]
    · simp [Prod.ext_iff]
    · simp at h
  · rintro b (rfl | h)
    · simp [Prod.ext_iff]
    · simp at h
  · simp

theorem pts3_enum_head : ((0 : ℕ), mkPt "A" 0 0) ∈ pts3.enum := by
  rw [show pts3 = mkPt "A" 0 0 :: [mkPt "B" 3 0, mkPt "C" 0 4] from rfl, List.enum_cons]
  exact List.mem_cons_self _ _

theorem nns3_length : (nearestNeighborsFor pts3 0 (mkPt "A" 0 0)).length = 2 := by
  rw [length_nns pts3 0 _ (by rw [pts3_length]; omega), pts3_length]
  decide

theorem div3_mem : div3 ∈ cellDivisors pts3 0 (mkPt "A" 0 0) := by
  apply headD_mem
  unfold cellDivisors
  rw [if_pos (by rw [nns3_length])]
  intro hh
  have hlen := congrArg List.length hh
  simp only [List.length_append, List.length_map, List.length_zip, List.length_tail,
    nns3_length, List.length_nil] at hlen
  omega

/-- Witness for the divisor-positivity theorem at the 3-point input. -/
theorem cell_divisors_pos_witness : 0 < div3 :=
  cell_divisors_pos pts3 (0, mkPt "A" 0 0) pts3_pairwise pts3_enum_head div3 div3_mem

theorem insertionSort_eq_of_sorted {α : Type} (r : α → α → Prop) [DecidableRel r] :
    ∀ l : List α, l.Sorted r → List.insertionSort r l = l := by
  intro l
  induction l with
  | nil => intro _; rfl
  | cons a t ih =>
    intro h
    show List.orderedInsert r a (List.insertionSort r t) = a :: t
    rw [ih (List.sorted_cons.mp h).2]
    cases t with
    | nil => rfl
    | cons b t2 =>
      show (if r a b then a :: b :: t2 else b :: List.orderedInsert r a t2) = _
      rw [if_pos ((List.sorted_cons.mp h).1 b (List.mem_cons_self _ _))]

theorem jsOrOpt_ne_empty (v : Option String) (d : String) (hd : d ≠ "") :
    jsOrOpt v d ≠ "" := by
  cases v with
  | none => exact hd
  | some s =>
    show (if s = "" then d else s) ≠ ""
    by_cases hs : s = ""
    · rw [if_pos hs]; exact hd
    · rw [if_neg hs]; exact hs

theorem sectorNameOf_ne_empty (r : EnterpriseRow) : sectorNameOf r ≠ "" :=
  jsOrOpt_ne_empty _ _ (jsOrOpt_ne_empty _ _ (by simp))

theorem aggregate_labels_ne_empty (rs : List EnterpriseRow) :
    ∀ pt ∈ aggregateIndustryPoints rs, pt.labels ≠ "" := by
  intro pt hpt
  have h1 : pt.labels ∈ (aggregateIndustryPoints rs).map (fun p => p.labels) :=
    List.mem_map.mpr ⟨pt, hpt, rfl⟩
  rw [labels_aggregate] at h1
  obtain ⟨r, -, hr⟩ := List.mem_map.mp ((mem_firstDedup _ _).mp h1)
  rw [← hr]
  exact sectorNameOf_ne_empty r

/-- The stable sorted sector-name list that drives all color choices. -/
def sortedNames (rs : List EnterpriseRow) : List String :=
  List.insertionSort (· ≤ ·) (firstDedup ((rs.filter hasCoords).map sectorNameOf))

theorem uniqueLabels_pipeline (rs : List EnterpriseRow) :
    uniqueLabelsOf (aggregateIndustryPoints rs) = sortedNames rs := by
  unfold uniqueLabelsOf sortedNames
  congr 1
  have hmap : (aggregateIndustryPoints rs).map (fun d => jsOrS d.labels "Unknown") =
      (aggregateIndustryPoints rs).map (fun p => p.labels) := by
    apply List.map_congr_left
    intro p hp
    unfold jsOrS
    rw [if_neg (aggregate_labels_ne_empty rs p hp)]
  rw [hmap, labels_aggregate]
  exact firstDedup_eq_self_of_nodup _ (nodup_firstDedup _)

theorem pipeline_cell_color (rs : List EnterpriseRow) (c : VoronoiCell)
    (hc : c ∈ voronoiPipeline rs) :
    c.labels ∈ firstDedup ((rs.filter hasCoords).map sectorNameOf) ∧
    c.color = colors20.getD ((sortedNames rs).indexOf c.labels % 20) "" := by
  unfold voronoiPipeline at hc
  by_cases h2 : 2 ≤ (aggregateIndustryPoints rs).length
  swap
  · rw [computeVoronoi_of_lt_two _ (by omega)] at hc
    simp at hc
  rw [computeVoronoi_of_two_le _ h2] at hc
  obtain ⟨ip, hip, rfl⟩ := List.mem_map.mp hc
  have hpmem : ip.2 ∈ aggregateIndustryPoints rs := mem_enum_snd_mem _ ip hip
  have hlbl : jsOrS ip.2.labels "Unknown" = ip.2.labels := by
    unfold jsOrS
    rw [if_neg (aggregate_labels_ne_empty rs ip.2 hpmem)]
  have hlblmem : ip.2.labels ∈ firstDedup ((rs.filter hasCoords).map sectorNameOf) := by
    rw [← labels_aggregate]
    exact List.mem_map.mpr ⟨ip.2, hpmem, rfl⟩
  have hcelllbl : (cellFor (aggregateIndustryPoints rs)
      (uniqueLabelsOf (aggregateIndustryPoints rs)) (xMinOf (aggregateIndustryPoints rs))
      (xMaxOf (aggregateIndustryPoints rs)) (yMinOf (aggregateIndustryPoints rs))
      (yMaxOf (aggregateIndustryPoints rs)) ip.1 ip.2).labels = ip.2.labels := by
    show jsOrS ip.2.labels "Unknown" = ip.2.labels
    exact hlbl
  rw [hcelllbl]
  refine ⟨hlblmem, ?_⟩
  show colors20.getD ((if jsOrS ip.2.labels "Unknown" ∈
      uniqueLabelsOf (aggregateIndustryPoints rs) then
        (uniqueLabelsOf (aggregateIndustryPoints rs)).indexOf (jsOrS ip.2.labels "Unknown")
      else ip.1 % colors20.length) % colors20.length) "" = _
  rw [hlbl, uniqueLabels_pipeline rs]
  have hin : ip.2.labels ∈ sortedNames rs := by
    unfold sortedNames
    exact (List.perm_insertionSort _ _).mem_iff.mpr hlblmem
  rw [if_pos hin]
  rfl

theorem sortedNames_ext (rs1 rs2 : List EnterpriseRow)
    (hsets : ∀ n, (∃ r ∈ rs1, hasCoords r = true ∧ sectorNameOf r = n) ↔
      (∃ r ∈ rs2, hasCoords r = true ∧ sectorNameOf r = n)) :
    sortedNames rs1 = sortedNames rs2 := by
  have hmem : ∀ (rs : List EnterpriseRow) (n : String),
      n ∈ firstDedup ((rs.filter hasCoords).map sectorNameOf) ↔
      (∃ r ∈ rs, hasCoords r = true ∧ sectorNameOf r = n) := by
    intro rs n
    rw [mem_firstDedup]
    constructor
    · intro h
      obtain ⟨r, hr, hrn⟩ := List.mem_map.mp h
      exact ⟨r, (List.mem_filter.mp hr).1, (List.mem_filter.mp hr).2, hrn⟩
    · rintro ⟨r, hr, hg, hn⟩
      exact List.mem_map.mpr ⟨r, List.mem_filter.mpr ⟨hr, hg⟩, hn⟩
  have hperm : List.Perm (firstDedup ((rs1.filter hasCoords).map sectorNameOf))
      (firstDedup ((rs2.filter hasCoords).map sectorNameOf)) := by
    rw [List.perm_ext_iff_of_nodup (nodup_firstDedup _) (nodup_firstDedup _)]
    intro n
    rw [hmem rs1 n, hmem rs2 n]
    exact hsets n
  unfold sortedNames
  refine List.eq_of_perm_of_sorted ?_ (List.sorted_insertionSort _ _)
    (List.sorted_insertionSort _ _)
  exact ((List.perm_insertionSort _ _).trans hperm).trans
    (List.perm_insertionSort _ _).symm

/-- C6 (amended): two datasets whose guard-passing records cover the same
set of sector names give every shared sector name the same color, whatever
the input order, because colors are looked up in the lexicographically
sorted list of distinct sector names. -/
theorem pipeline_color_stable (rs1 rs2 : List EnterpriseRow)
    (hsets : ∀ n, (∃ r ∈ rs1, hasCoords r = true ∧ sectorNameOf r = n) ↔
      (∃ r ∈ rs2, hasCoords r = true ∧ sectorNameOf r = n))
    (c1 c2 : VoronoiCell) (h1 : c1 ∈ voronoiPipeline rs1) (h2 : c2 ∈ voronoiPipeline rs2)
    (hl : c1.labels = c2.labels) : c1.color = c2.color := by
  obtain ⟨-, hcol1⟩ := pipeline_cell_color rs1 c1 h1
  obtain ⟨-, hcol2⟩ := pipeline_cell_color rs2 c2 h2
  rw [hcol1, hcol2, hl, sortedNames_ext rs1 rs2 hsets]

/-- A record of sector B at (0, 0). -/
def rowB00 : EnterpriseRow := ⟨some "B", none, none, none, .num 0, .num 0⟩

/-- A record of sector C at (4, 0). -/
def rowC40 : EnterpriseRow := ⟨some "C", none, none, none, .num 4, .num 0⟩

/-- A record of sector A at (0, 4). -/
def rowA04 : EnterpriseRow := ⟨some "A", none, none, none, .num 0, .num 4⟩

/-- Dataset naming sectors A, B, C where the only A record has an undefined
x coordinate, so sector A never reaches the tessellator. -/
def dsNoA : List EnterpriseRow := [rowA_noX, rowB00, rowC40]

/-- Dataset naming sectors A, B, C with all records valid. -/
def dsWithA : List EnterpriseRow := [rowA04, rowB00, rowC40]

/-- The previous dataset in reversed input order. -/
def dsWithARev : List EnterpriseRow := [rowC40, rowB00, rowA04]

/-- Sector map entries produced by the three datasets. -/
def accB00 : SectorAcc := ⟨"B", "B", 0, 0, 1⟩

def accC40 : SectorAcc := ⟨"C", "C", 4, 0, 1⟩

def accA04 : SectorAcc := ⟨"A", "A", 0, 4, 1⟩

theorem foldNoA : sectorFold dsNoA = [accB00, accC40] := by
  simp [sectorFold, dsNoA, rowA_noX, rowB00, rowC40, stepRow, hasCoords, JSNum.isUndefined,
    updateAcc, sectorNameOf, sectorCodeOf, jsOrOpt, parseOr0, accB00, accC40]

theorem aggNoA : aggregateIndustryPoints dsNoA =
    [pointOfSector accB00, pointOfSector accC40] := by
  rw [aggregate_eq_map, foldNoA]
  rfl

theorem foldWithA : sectorFold dsWithA = [accA04, accB00, accC40] := by
  simp [sectorFold, dsWithA, rowA04, rowB00, rowC40, stepRow, hasCoords, JSNum.isUndefined,
    updateAcc, sectorNameOf, sectorCodeOf, jsOrOpt, parseOr0, accA04, accB00, accC40]

theorem aggWithA : aggregateIndustryPoints dsWithA =
    [pointOfSector accA04, pointOfSector accB00, pointOfSector accC40] := by
  rw [aggregate_eq_map, foldWithA]
  rfl

theorem foldWithARev : sectorFold dsWithARev = [accC40, accB00, accA04] := by
  simp [sectorFold, dsWithARev, rowA04, rowB00, rowC40, stepRow, hasCoords, JSNum.isUndefined,
    updateAcc, sectorNameOf, sectorCodeOf, jsOrOpt, parseOr0, accA04, accB00, accC40]

theorem aggWithARev : aggregateIndustryPoints dsWithARev =
    [pointOfSector accC40, pointOfSector accB00, pointOfSector accA04] := by
  rw [aggregate_eq_map, foldWithARev]
  rfl

theorem sortedNames_dsNoA : sortedNames dsNoA = ["B", "C"] := by
  unfold sortedNames
  have h1 : (dsNoA.filter hasCoords).map sectorNameOf = ["B", "C"] := by
    simp [dsNoA, rowA_noX, rowB00, rowC40, hasCoords, JSNum.isUndefined, List.filter,
      sectorNameOf, jsOrOpt]
  rw [h1, show firstDedup ["B", "C"] = ["B", "C"] from by decide]
  apply insertionSort_eq_of_sorted
  simp [List.sorted_cons]
  decide

theorem sortedNames_dsWithA : sortedNames dsWithA = ["A", "B", "C"] := by
  unfold sortedNames
  have h1 : (dsWithA.filter hasCoords).map sectorNameOf = ["A", "B", "C"] := by
    simp [dsWithA, rowA04, rowB00, rowC40, hasCoords, JSNum.isUndefined, List.filter,
      sectorNameOf, jsOrOpt]
  rw [h1, show firstDedup ["A", "B", "C"] = ["A", "B", "C"] from by decide]
  apply insertionSort_eq_of_sorted
  simp [List.sorted_cons]
  refine ⟨⟨?_, ?_⟩, ?_⟩ <;> decide

/-- The B cell of the pipeline on dsNoA. -/
def cBa : VoronoiCell := (voronoiPipeline dsNoA).headD dummyCell

/-- The B cell of the pipeline on dsWithA. -/
def cBb : VoronoiCell := (voronoiPipeline dsWithA).getD 1 dummyCell

/-- The B cell of the pipeline on the reversed dataset. -/
def cBrev : VoronoiCell := (voronoiPipeline dsWithARev).getD 1 dummyCell

theorem getD_mem {α : Type} (l : List α) (n : ℕ) (d : α) (h : n < l.length) :
    l.getD n d ∈ l := by
  rw [List.getD_eq_getElem?_getD, List.getElem?_eq_getElem h]
  exact List.getElem_mem h

theorem cBa_mem : cBa ∈ voronoiPipeline dsNoA := by
  apply headD_mem
  have hl : (voronoiPipeline dsNoA).length = 2 := by
    rw [voronoiPipeline, aggNoA, computeVoronoi_length _ (by simp)]
    rfl
  intro hh
  rw [hh] at hl
  simp at hl

theorem cBb_mem : cBb ∈ voronoiPipeline dsWithA := by
  apply getD_mem
  rw [voronoiPipeline, aggWithA, computeVoronoi_length _ (by simp)]
  simp

theorem cBrev_mem : cBrev ∈ voronoiPipeline dsWithARev := by
  apply getD_mem
  rw [voronoiPipeline, aggWithARev, computeVoronoi_length _ (by simp)]
  simp

theorem cBa_labels : cBa.labels = "B" := by
  have he : cBa = cellFor (aggregateIndustryPoints dsNoA)
      (uniqueLabelsOf (aggregateIndustryPoints dsNoA)) (xMinOf (aggregateIndustryPoints dsNoA))
      (xMaxOf (aggregateIndustryPoints dsNoA)) (yMinOf (aggregateIndustryPoints dsNoA))
      (yMaxOf (aggregateIndustryPoints dsNoA)) 0 (pointOfSector accB00) := by
    unfold cBa
    rw [voronoiPipeline, computeVoronoi_of_two_le _ (by rw [aggNoA]; simp)]
    rw [show (aggregateIndustryPoints dsNoA).enum =
      (0, pointOfSector accB00) :: (1, pointOfSector accC40) :: [] from by
        rw [aggNoA]; rfl]
    rfl
  rw [he]
  show jsOrS (pointOfSector accB00).labels "Unknown" = "B"
  simp [pointOfSector, accB00, jsOrS]

theorem cBb_labels : cBb.labels = "B" := by
  have he : cBb = cellFor (aggregateIndustryPoints dsWithA)
      (uniqueLabelsOf (aggregateIndustryPoints dsWithA))
      (xMinOf (aggregateIndustryPoints dsWithA)) (xMaxOf (aggregateIndustryPoints dsWithA))
      (yMinOf (aggregateIndustryPoints dsWithA)) (yMaxOf (aggregateIndustryPoints dsWithA))
      1 (pointOfSector accB00) := by
    unfold cBb
    rw [voronoiPipeline, computeVoronoi_of_two_le _ (by rw [aggWithA]; simp)]
    rw [show (aggregateIndustryPoints dsWithA).enum =
      (0, pointOfSector accA04) :: (1, pointOfSector accB00) ::
        (2, pointOfSector accC40) :: [] from by
        rw [aggWithA]; rfl]
    rfl
  rw [he]
  show jsOrS (pointOfSector accB00).labels "Unknown" = "B"
  simp [pointOfSector, accB00, jsOrS]

theorem cBrev_labels : cBrev.labels = "B" := by
  have he : cBrev = cellFor (aggregateIndustryPoints dsWithARev)
      (uniqueLabelsOf (aggregateIndustryPoints dsWithARev))
      (xMinOf (aggregateIndustryPoints dsWithARev))
      (xMaxOf (aggregateIndustryPoints dsWithARev))
      (yMinOf (aggregateIndustryPoints dsWithARev))
      (yMaxOf (aggregateIndustryPoints dsWithARev))
      1 (pointOfSector accB00) := by
    unfold cBrev
    rw [voronoiPipeline, computeVoronoi_of_two_le _ (by rw [aggWithARev]; simp)]
    rw [show (aggregateIndustryPoints dsWithARev).enum =
      (0, pointOfSector accC40) :: (1, pointOfSector accB00) ::
        (2, pointOfSector accA04) :: [] from by
        rw [aggWithARev]; rfl]
    rfl
  rw [he]
  show jsOrS (pointOfSector accB00).labels "Unknown" = "B"
  simp [pointOfSector, accB00, jsOrS]

theorem cBa_color : cBa.color = "#e74c3c50" := by
  have h := (pipeline_cell_color dsNoA cBa cBa_mem).2
  rw [cBa_labels, sortedNames_dsNoA] at h
  rw [h]
  decide

theorem cBb_color : cBb.color = "#3498db50" := by
  have h := (pipeline_cell_color dsWithA cBb cBb_mem).2
  rw [cBb_labels, sortedNames_dsWithA] at h
  rw [h]
  decide

/-- Claim C6 as stated: datasets containing the same set of sector names
(irrespective of coordinate validity) color every shared sector name
identically. -/
def claimC6 : Prop :=
  ∀ rs1 rs2 : List EnterpriseRow,
    (∀ n, (∃ r ∈ rs1, sectorNameOf r = n) ↔ (∃ r ∈ rs2, sectorNameOf r = n)) →
    ∀ c1 ∈ voronoiPipeline rs1, ∀ c2 ∈ voronoiPipeline rs2,
      c1.labels = c2.labels → c1.color = c2.color

/-- C6 (counterexample): two datasets both naming sectors A, B, C, where
one carries sector A only on a record with an undefined coordinate, color
sector B differently (first versus second palette entry). -/
theorem claimC6_false : ¬ claimC6 := by
  intro h
  have hsets : ∀ n, (∃ r ∈ dsNoA, sectorNameOf r = n) ↔
      (∃ r ∈ dsWithA, sectorNameOf r = n) := by
    intro n
    simp only [dsNoA, dsWithA, rowA_noX, rowA04, rowB00, rowC40, List.mem_cons,
      List.not_mem_nil, or_false]
    constructor
    · rintro ⟨r, hr, hn⟩
      rcases hr with rfl | rfl | rfl
      · exact ⟨⟨some "A", none, none, none, .num 0, .num 4⟩, Or.inl rfl, hn⟩
      · exact ⟨⟨some "B", none, none, none, .num 0, .num 0⟩, Or.inr (Or.inl rfl), hn⟩
      · exact ⟨⟨some "C", none, none, none, .num 4, .num 0⟩, Or.inr (Or.inr rfl), hn⟩
    · rintro ⟨r, hr, hn⟩
      rcases hr with rfl | rfl | rfl
      · exact ⟨⟨some "A", none, none, none, .undefined, .num 0⟩, Or.inl rfl, hn⟩
      · exact ⟨⟨some "B", none, none, none, .num 0, .num 0⟩, Or.inr (Or.inl rfl), hn⟩
      · exact ⟨⟨some "C", none, none, none, .num 4, .num 0⟩, Or.inr (Or.inr rfl), hn⟩
  have heq := h dsNoA dsWithA hsets cBa cBa_mem cBb cBb_mem (by rw [cBa_labels, cBb_labels])
  rw [cBa_color, cBb_color] at heq
  exact absurd heq (by decide)

/-- Witness for the amended C6 theorem: the same valid dataset in two input
orders colors sector B identically. -/
theorem pipeline_color_stable_witness : cBb.color = cBrev.color := by
  have hsets : ∀ n, (∃ r ∈ dsWithA, hasCoords r = true ∧ sectorNameOf r = n) ↔
      (∃ r ∈ dsWithARev, hasCoords r = true ∧ sectorNameOf r = n) := by
    intro n
    simp only [dsWithA, dsWithARev, List.mem_cons, List.not_mem_nil, or_false]
    constructor
    · rintro ⟨r, hr, hg, hn⟩
      rcases hr with rfl | rfl | rfl
      · exact ⟨rowA04, Or.inr (Or.inr rfl), hg, hn⟩
      · exact ⟨rowB00, Or.inr (Or.inl rfl), hg, hn⟩
      · exact ⟨rowC40, Or.inl rfl, hg, hn⟩
    · rintro ⟨r, hr, hg, hn⟩
      rcases hr with rfl | rfl | rfl
      · exact ⟨rowC40, Or.inr (Or.inr rfl), hg, hn⟩
      · exact ⟨rowB00, Or.inr (Or.inl rfl), hg, hn⟩
      · exact ⟨rowA04, Or.inl rfl, hg, hn⟩
  exact pipeline_color_stable dsWithA dsWithARev hsets cBb cBrev cBb_mem cBrev_mem
    (by rw [cBb_labels, cBrev_labels])

/-- The marker size described by claim C9: a [5, 50]-clamped weighted
combination of the three primary metric averages and a headcount average,
with a [5, 20]-clamped memberCount fallback when all metrics are zero. -/
def claimedMarkerSize (m1 m2 m3 h : ℝ) (memberCount : ℕ) : ℝ :=
  if m1 = 0 ∧ m2 = 0 ∧ m3 = 0 ∧ h = 0 then
    max 5 (min 20 ((memberCount : ℝ) * 0.8))
  else max 5 (min 50 (0.3 * (m1 + m2 + m3) + 0.1 * h))

theorem five_le_claimedMarkerSize (m1 m2 m3 h : ℝ) (mc : ℕ) :
    5 ≤ claimedMarkerSize m1 m2 m3 h mc := by
  unfold claimedMarkerSize
  split
  · exact le_max_left _ _
  · exact le_max_left _ _

/-- Claim C9 in its weakest reading: every transformed point derives its
size from the claimed marker-size formula at some metric values. -/
def claimC9 : Prop :=
  ∀ cs : List ClusterCompany, ∀ pt ∈ transformClusteringData cs,
    ∃ m1 m2 m3 h mc, pt.size = claimedMarkerSize m1 m2 m3 h mc

/-- A concrete enterprise with coordinates (0, 0) and all four metrics 1. -/
def entW : ClusterEnterprise :=
  ⟨.num 0, .num 0, .undefined, .undefined, .undefined, .undefined, .undefined,
   .num 1, .num 1, .num 1, .num 1, .undefined, .undefined⟩

/-- A one-company, one-enterprise clustering result. -/
def csW : List ClusterCompany := [⟨[entW]⟩]

/-- Placeholder transformed point for headD. -/
def dummyZoom : ZoomPoint := ⟨0, 0, 0, .num 0, 0, 0⟩

/-- The single point the transform produces on csW. -/
def ptW9 : ZoomPoint := (transformClusteringData csW).headD dummyZoom

theorem ptW9_mem : ptW9 ∈ transformClusteringData csW := by
  apply headD_mem
  have hl : (transformClusteringData csW).length = 1 := rfl
  intro hh
  rw [hh] at hl
  simp at hl

/-- C9 (amended): the clustering-page transform gives every point the fixed
size 0.2 and uses the 0.3/0.1 weighted metric combination, unclamped, as
the z coordinate instead. -/
theorem transform_size_z (cs : List ClusterCompany) (pt : ZoomPoint)
    (hpt : pt ∈ transformClusteringData cs) :
    pt.size = 0.2 ∧ ∃ c ∈ cs, ∃ e ∈ c.enterprise, pt.z = calculatedZ e := by
  unfold transformClusteringData at hpt
  obtain ⟨ip, hip, rfl⟩ := List.mem_map.mp hpt
  have hraw : ip.2 ∈ rawZoomPoints cs := mem_enum_snd_mem _ ip hip
  unfold rawZoomPoints at hraw
  obtain ⟨c, hc, hmem⟩ := List.mem_flatMap.mp hraw
  obtain ⟨e, he, heq⟩ := List.mem_filterMap.mp hmem
  by_cases hv : hasValidZoomCoords (finalCoords e).1 (finalCoords e).2
  · rw [if_pos hv] at heq
    have hval := Option.some.inj heq
    constructor
    · show ip.2.size = 0.2
      rw [← hval]
    · refine ⟨c, hc, e, he, ?_⟩
      show ip.2.z = calculatedZ e
      rw [← hval]
  · rw [if_neg hv] at heq
    exact absurd heq (by simp)

/-- Witness for the amended C9 theorem at the one-enterprise input. -/
theorem transform_size_z_witness :
    ptW9.size = 0.2 ∧ ∃ c ∈ csW, ∃ e ∈ c.enterprise, ptW9.z = calculatedZ e :=
  transform_size_z csW ptW9 ptW9_mem

/-- C9 (counterexample): the transformed point of csW has size 0.2, which
no instance of the claimed clamped formula (always at least 5) can equal. -/
theorem claimC9_false : ¬ claimC9 := by
  intro h
  obtain ⟨m1, m2, m3, hm, mc, hsize⟩ := h csW ptW9 ptW9_mem
  have h02 : ptW9.size = 0.2 := rfl
  rw [h02] at hsize
  have h5 := five_le_claimedMarkerSize m1 m2 m3 hm mc
  rw [← hsize] at h5
  norm_num at h5

/-- Half-plane classifier for the pseudo-angle order around the origin:
0 for angles in the half-open upper half plane (positive x axis included),
1 for the rest. -/
def halfPlane (w : ℝ × ℝ) : ℕ :=
  if 0 < w.2 ∨ (w.2 = 0 ∧ 0 < w.1) then 0 else 1

/-- The z component of the cross product of two plane vectors. -/
def crossZ (u v : ℝ × ℝ) : ℝ := u.1 * v.2 - u.2 * v.1

/-- Pseudo-angle comparison of two vertices as seen from p: the standard
counterclockwise angular order with branch cut at the positive x axis. -/
def angLe (p u v : ℝ × ℝ) : Prop :=
  halfPlane (u - p) < halfPlane (v - p) ∨
  (halfPlane (u - p) = halfPlane (v - p) ∧ 0 ≤ crossZ (u - p) (v - p))

/-- A vertex list is angularly sorted around p when some rotation of it is
monotone for the angular order, in one of the two possible directions (the
branch cut and orientation of the claimed sort are left unconstrained). -/
def angularlySorted (p : ℝ × ℝ) (l : List (ℝ × ℝ)) : Prop :=
  ∃ k, k < l.length ∧
    ((l.rotate k).Chain' (angLe p) ∨ (l.rotate k).Chain' (fun u v => angLe p v u))

/-- Claim C8 as stated: for every site with at least 2 neighbors the cell
vertices (without the closing repeat) are connected in angular order around
the site. -/
def claimC8 : Prop :=
  ∀ (pts : List IndustryDataPoint) (ip : ℕ × IndustryDataPoint), ip ∈ pts.enum →
    2 ≤ (nearestNeighborsFor pts ip.1 ip.2).length →
    angularlySorted (ip.2.emb_x, ip.2.emb_y)
      ((cellFor pts (uniqueLabelsOf pts) (xMinOf pts) (xMaxOf pts) (yMinOf pts) (yMaxOf pts)
        ip.1 ip.2).vertices.dropLast)

theorem openVertices_getElem_even (p : IndustryDataPoint) :
    ∀ (nns : List DistEntry) (k : ℕ) (hk : k < nns.length),
      (openVertices p nns)[2 * k]? = some (bisectorVertex p (nns.get ⟨k, hk⟩)) := by
  intro nns
  induction nns with
  | nil => intro k hk; simp at hk
  | cons nb rest ih =>
    intro k hk
    cases rest with
    | nil =>
      have hk0 : k = 0 := by
        simp at hk
        omega
      subst hk0
      rfl
    | cons nb2 rest2 =>
      cases k with
      | zero => rfl
      | succ k2 =>
        have hk2 : k2 < (nb2 :: rest2).length := by
          simp at hk ⊢
          omega
        have hrec := ih k2 hk2
        show (bisectorVertex p nb :: cornerVertex p nb nb2 ::
          openVertices p (nb2 :: rest2))[2 * (k2 + 1)]? = _
        rw [show 2 * (k2 + 1) = 2 * k2 + 1 + 1 by ring]
        rw [List.getElem?_cons_succ, List.getElem?_cons_succ]
        rw [hrec]
        rfl

theorem nns_sorted_distances (pts : List IndustryDataPoint) (i : ℕ)
    (p : IndustryDataPoint) :
    (nearestNeighborsFor pts i p).Pairwise distLe := by
  have hs : (sortedDistancesFor pts i p).Pairwise distLe :=
    List.sorted_insertionSort distLe _
  exact hs.sublist (List.take_sublist 6 _)

/-- C8 (amended): the vertex loop follows the distance-sorted neighbor
order, not an angular order: the nearest neighbors are sorted by ascending
distance, the vertex at even position 2k is the perpendicular-bisector
vertex of the k-th nearest neighbor (corner vertices fill the odd
positions), and the ring is closed by appending the first vertex. -/
theorem cell_vertex_structure (pts : List IndustryDataPoint)
    (ip : ℕ × IndustryDataPoint) (h2 : 2 ≤ (nearestNeighborsFor pts ip.1 ip.2).length) :
    ((nearestNeighborsFor pts ip.1 ip.2).map (fun e => e.distance)).Chain' (· ≤ ·) ∧
    (∀ (k : ℕ) (hk : k < (nearestNeighborsFor pts ip.1 ip.2).length),
      (cellVerticesFor ip.2 (nearestNeighborsFor pts ip.1 ip.2))[2 * k]? =
        some (bisectorVertex ip.2 ((nearestNeighborsFor pts ip.1 ip.2).get ⟨k, hk⟩))) ∧
    cellVerticesFor ip.2 (nearestNeighborsFor pts ip.1 ip.2) =
      openVertices ip.2 (nearestNeighborsFor pts ip.1 ip.2) ++
        [(openVertices ip.2 (nearestNeighborsFor pts ip.1 ip.2)).headD (0, 0)] := by
  have hne : nearestNeighborsFor pts ip.1 ip.2 ≠ [] := by
    intro hh
    rw [hh] at h2
    simp at h2
  have hov : (openVertices ip.2 (nearestNeighborsFor pts ip.1 ip.2)).length =
      2 * (nearestNeighborsFor pts ip.1 ip.2).length - 1 :=
    openVertices_length ip.2 _ hne
  have hcv : cellVerticesFor ip.2 (nearestNeighborsFor pts ip.1 ip.2) =
      openVertices ip.2 (nearestNeighborsFor pts ip.1 ip.2) ++
        [(openVertices ip.2 (nearestNeighborsFor pts ip.1 ip.2)).headD (0, 0)] := by
    unfold cellVerticesFor
    rw [if_pos h2, if_pos (by omega)]
  refine ⟨?_, ?_, hcv⟩
  · exact List.Pairwise.chain'
      (List.pairwise_map.mpr (nns_sorted_distances pts ip.1 ip.2))
  · intro k hk
    rw [hcv]
    rw [List.getElem?_append_left (by omega : 2 * k <
      (openVertices ip.2 (nearestNeighborsFor pts ip.1 ip.2)).length)]
    exact openVertices_getElem_even ip.2 _ k hk

/-- Four centroids; the first one has neighbors at distances 2, 3, 4 whose
distance-sorted order is not an angular order. -/
def pts4 : List IndustryDataPoint :=
  [mkPt "A" 0 0, mkPt "B" 2 0, mkPt "Q" (-3) 0, mkPt "D" 0 4]

theorem sqrt_four : Real.sqrt (4 : ℝ) = 2 := by
  rw [show (4 : ℝ) = 2 ^ 2 by norm_num]
  exact Real.sqrt_sq (by norm_num)

theorem sqrt_nine : Real.sqrt (9 : ℝ) = 3 := by
  rw [show (9 : ℝ) = 3 ^ 2 by norm_num]
  exact Real.sqrt_sq (by norm_num)

theorem sqrt_sixteen : Real.sqrt (16 : ℝ) = 4 := by
  rw [show (16 : ℝ) = 4 ^ 2 by norm_num]
  exact Real.sqrt_sq (by norm_num)

theorem sqrt_twentyfive : Real.sqrt (25 : ℝ) = 5 := by
  rw [show (25 : ℝ) = 5 ^ 2 by norm_num]
  exact Real.sqrt_sq (by norm_num)

theorem dist4 : distancesFor pts4 0 (mkPt "A" 0 0) =
    [⟨2, 1, 2, 0⟩, ⟨3, 2, -3, 0⟩, ⟨4, 3, 0, 4⟩] := by
  unfold distancesFor pts4 mkPt
  norm_num [List.enum, List.enumFrom, List.filter, sqrt_four, sqrt_nine, sqrt_sixteen]

theorem sorted4 : sortedDistancesFor pts4 0 (mkPt "A" 0 0) =
    [⟨2, 1, 2, 0⟩, ⟨3, 2, -3, 0⟩, ⟨4, 3, 0, 4⟩] := by
  unfold sortedDistancesFor
  rw [dist4]
  apply insertionSort_eq_of_sorted
  simp [List.sorted_cons, distLe]
  norm_num

theorem nns4 : nearestNeighborsFor pts4 0 (mkPt "A" 0 0) =
    [⟨2, 1, 2, 0⟩, ⟨3, 2, -3, 0⟩, ⟨4, 3, 0, 4⟩] := by
  unfold nearestNeighborsFor
  rw [sorted4]
  rfl

theorem xmin4 : xMinOf pts4 = -5 := by
  unfold xMinOf pts4 mkPt listMin
  norm_num [List.foldl, min_def]

theorem xmax4 : xMaxOf pts4 = 4 := by
  unfold xMaxOf pts4 mkPt listMax
  norm_num [List.foldl, max_def]

theorem ymin4 : yMinOf pts4 = -2 := by
  unfold yMinOf pts4 mkPt listMin
  norm_num [List.foldl, min_def]

theorem ymax4 : yMaxOf pts4 = 6 := by
  unfold yMaxOf pts4 mkPt listMax
  norm_num [List.foldl, max_def]

theorem cell4_open : (cellFor pts4 (uniqueLabelsOf pts4) (xMinOf pts4) (xMaxOf pts4)
    (yMinOf pts4) (yMaxOf pts4) 0 (mkPt "A" 0 0)).vertices.dropLast =
    [((1 : ℝ), (1 : ℝ)), (-4/5, 3/50), (-3/2, -3/2), (-33/25, 109/50), (-3/2, 2)] := by
  rw [cellFor_vertices, nns4, xmin4, xmax4, ymin4, ymax4]
  simp only [cellVerticesFor, openVertices, bisectorVertex, cornerVertex, distanceCalc,
    clampVertex, mkPt, List.length_cons, List.length_nil, List.cons_append,
    List.nil_append, List.headD_cons]
  norm_num [List.map_cons, List.map_nil, List.cons_append, List.nil_append,
    List.headD_cons, List.dropLast_cons₂, List.dropLast_single, sqrt_four, sqrt_nine,
    sqrt_sixteen, sqrt_twentyfive, clampVertex, min_def, max_def, Prod.ext_iff]

theorem notAngSorted : ¬ angularlySorted ((0 : ℝ), (0 : ℝ))
    [((1 : ℝ), (1 : ℝ)), (-4/5, 3/50), (-3/2, -3/2), (-33/25, 109/50), (-3/2, 2)] := by
  rintro ⟨k, hk, hchain⟩
  have hk5 : k < 5 := by simpa using hk
  interval_cases k <;>
    rcases hchain with hchain | hchain <;>
      rw [List.rotate_eq_drop_append_take (by simp)] at hchain <;>
        norm_num [List.chain'_cons, List.chain'_singleton, angLe, halfPlane, crossZ,
          Prod.fst_sub, Prod.snd_sub] at hchain

/-- C8 (counterexample): for the first site of pts4 the vertex sequence has
angles of roughly 45, 176, 225, 121 and 127 degrees, which no rotation in
either direction makes monotone. -/
theorem claimC8_false : ¬ claimC8 := by
  intro h
  have hip : ((0 : ℕ), mkPt "A" 0 0) ∈ pts4.enum := by
    rw [show pts4 = mkPt "A" 0 0 :: [mkPt "B" 2 0, mkPt "Q" (-3) 0, mkPt "D" 0 4] from rfl,
      List.enum_cons]
    exact List.mem_cons_self _ _
  have hnn : 2 ≤ (nearestNeighborsFor pts4 0 (mkPt "A" 0 0)).length := by
    rw [nns4]
    simp
  have hang := h pts4 (0, mkPt "A" 0 0) hip hnn
  have hang2 : angularlySorted ((0 : ℝ), (0 : ℝ))
      ((cellFor pts4 (uniqueLabelsOf pts4) (xMinOf pts4) (xMaxOf pts4) (yMinOf pts4)
        (yMaxOf pts4) 0 (mkPt "A" 0 0)).vertices.dropLast) := hang
  rw [cell4_open] at hang2
  exact notAngSorted hang2

/-- Witness for the amended C8 theorem at the 4-point input. -/
theorem cell_vertex_structure_witness :
    ((nearestNeighborsFor pts4 0 (mkPt "A" 0 0)).map (fun e => e.distance)).Chain' (· ≤ ·) ∧
    (cellVerticesFor (mkPt "A" 0 0) (nearestNeighborsFor pts4 0 (mkPt "A" 0 0)))[2 * 0]? =
      some (bisectorVertex (mkPt "A" 0 0) ((nearestNeighborsFor pts4 0 (mkPt "A" 0 0)).get
        ⟨0, by rw [nns4]; simp⟩)) ∧
    cellVerticesFor (mkPt "A" 0 0) (nearestNeighborsFor pts4 0 (mkPt "A" 0 0)) =
      openVertices (mkPt "A" 0 0) (nearestNeighborsFor pts4 0 (mkPt "A" 0 0)) ++
        [(openVertices (mkPt "A" 0 0) (nearestNeighborsFor pts4 0 (mkPt "A" 0 0))).headD
          (0, 0)] := by
  obtain ⟨h1, h2, h3⟩ := cell_vertex_structure pts4 (0, mkPt "A" 0 0) (by rw [nns4]; simp)
  exact ⟨h1, h2 0 (by rw [nns4]; simp), h3⟩

end
